import Mathlib

set_option synthInstance.maxSize 512
set_option maxRecDepth 10000
set_option maxHeartbeats 1000000

/-!
# Verification of the mbstats repository against its specification

Shallow embedding of the Go sources of `derat/mbstats`:

* the tab-separated line parser (`lineParser`, `getString`, `getInt`, `getTime`)
  from the read-mbdump executable;
* the extraction stage (`readEditArchive`, `readEditorArchive`, `writeEditorStats`);
* the query side (`yearlyAge` report of cmd/mbstats/main.go);
* the linear histogram (`newHistogram`, `histogram.add`).

Machine integers are modelled as `Int` with explicit two's-complement wrapping
where Go wraps (`int32`, `int16`, `int64`).  Go `float64` values are modelled
exactly: a float is a dyadic rational carried as a mantissa/exponent pair of
integers, and every arithmetic step performs IEEE-754 round-to-nearest-even at
53 significant bits, implemented with integer arithmetic only so that concrete
runs evaluate inside the kernel.  Rows of the dump files are modelled by their
column lists (Go obtains them with `strings.Split(line, "\t")`, a literal split
on tabs with no quoting or escaping).
-/

namespace Mbstats

/-! ## Two's-complement wrapping (Go fixed-width integer arithmetic) -/

/-- Wrap an integer into the signed 16-bit range, as Go's `int16` conversion does. -/
def wrap16 (x : ℤ) : ℤ := (x + 2 ^ 15) % 2 ^ 16 - 2 ^ 15

/-- Wrap an integer into the signed 32-bit range, as Go's `int32` arithmetic does. -/
def wrap32 (x : ℤ) : ℤ := (x + 2 ^ 31) % 2 ^ 32 - 2 ^ 31

/-- Wrap an integer into the signed 64-bit range, as Go's `int64` arithmetic does. -/
def wrap64 (x : ℤ) : ℤ := (x + 2 ^ 63) % 2 ^ 64 - 2 ^ 63

theorem wrap32_eq_self (x : ℤ) (h1 : -2 ^ 31 ≤ x) (h2 : x < 2 ^ 31) : wrap32 x = x := by
  unfold wrap32; omega

theorem wrap64_eq_self (x : ℤ) (h1 : -2 ^ 63 ≤ x) (h2 : x < 2 ^ 63) : wrap64 x = x := by
  unfold wrap64; omega

theorem wrap32_wrap32_add (x y : ℤ) : wrap32 (wrap32 x + y) = wrap32 (x + y) := by
  unfold wrap32; omega

/-! ## strconv.ParseInt (base 10) -/

/-- Accumulate a decimal digit string; `none` on any non-digit. -/
def parseDigitsAux : List Char → ℕ → Option ℕ
  | [], acc => some acc
  | c :: cs, acc =>
    if c.isDigit then parseDigitsAux cs (acc * 10 + (c.toNat - 48)) else none

/-- A non-empty run of decimal digits, as a natural number. -/
def parseDigits : List Char → Option ℕ
  | [] => none
  | cs => parseDigitsAux cs 0

/-- Syntax of Go's `strconv.ParseInt(s, 10, _)`: an optional sign followed by at
least one decimal digit, nothing else.  `none` models a `strconv` syntax error. -/
def parseIntSyntax : List Char → Option ℤ
  | [] => none
  | '+' :: cs => (parseDigits cs).map fun n => (n : ℤ)
  | '-' :: cs => (parseDigits cs).map fun n => -(n : ℤ)
  | cs => (parseDigits cs).map fun n => (n : ℤ)

/-- `strconv.ParseInt(s, 10, 32)`: returned value and error flag.  On a syntax
error Go returns 0; on a range error it returns the value clamped to the
`int32` range.  In both cases the error flag is set. -/
def parseInt32 (s : String) : ℤ × Bool :=
  match parseIntSyntax s.data with
  | none => (0, true)
  | some v =>
    if v < -2 ^ 31 then (-2 ^ 31, true)
    else if 2 ^ 31 - 1 < v then (2 ^ 31 - 1, true)
    else (v, false)

/-! ## time.Parse with layout "2006-01-02 15:04:05.999-07" -/

/-- The wall-clock reading produced by `time.Parse` for the PostgreSQL dump
layout: the civil fields exactly as written in the string, plus the fixed
zone offset (seconds east of UTC) given by the trailing `±hh`.  Go's `Year()`
on the parsed value reports `year` — the field as written — because the parsed
`time.Time` carries the fixed zone of the string itself. -/
structure GoWall where
  year : ℤ
  month : ℕ
  day : ℕ
  hour : ℕ
  minute : ℕ
  second : ℕ
  nanos : ℕ
  offSec : ℤ
deriving DecidableEq

/-- The zero `time.Time` (January 1, year 1, 00:00:00 UTC) as a wall reading. -/
def goZeroWall : GoWall := ⟨1, 1, 1, 0, 0, 0, 0, 0⟩

/-- Gregorian leap year. -/
def isLeap (y : ℤ) : Bool := y % 4 = 0 && (y % 100 ≠ 0 || y % 400 = 0)

/-- Number of days in a month (Gregorian), as Go's date validation uses. -/
def daysInMonth (y : ℤ) (m : ℕ) : ℕ :=
  if m = 2 then (if isLeap y then 29 else 28)
  else if m = 4 || m = 6 || m = 9 || m = 11 then 30
  else 31

/-- Read exactly two decimal digits. -/
def get2 : List Char → Option (ℕ × List Char)
  | c1 :: c2 :: rest =>
    if c1.isDigit && c2.isDigit then
      some ((c1.toNat - 48) * 10 + (c2.toNat - 48), rest)
    else none
  | _ => none

/-- Read exactly four decimal digits (the `2006` year field). -/
def get4 (cs : List Char) : Option (ℕ × List Char) :=
  match get2 cs with
  | none => none
  | some (hi, rest) =>
    match get2 rest with
    | none => none
    | some (lo, rest2) => some (hi * 100 + lo, rest2)

/-- Expect one specific character. -/
def expectChar (c : Char) : List Char → Option (List Char)
  | d :: rest => if d = c then some rest else none
  | [] => none

/-- Split a leading run of decimal digits from the rest. -/
def takeDigits : List Char → List Char × List Char
  | [] => ([], [])
  | c :: cs =>
    if c.isDigit then
      let (ds, r) := takeDigits cs
      (c :: ds, r)
    else ([], c :: cs)

/-- Value of a digit list read as a fraction of a second, in nanoseconds
(at most nine digits, as Go accepts). -/
def fracNanos (ds : List Char) : Option ℕ :=
  if ds.length = 0 || 9 < ds.length then none
  else
    match parseDigits ds with
    | none => none
    | some v => some (v * 10 ^ (9 - ds.length))

/-- The optional `.999` fractional-second part: either absent, or a decimal
point (Go also accepts a comma) followed by one to nine digits. -/
def parseFrac : List Char → Option (ℕ × List Char)
  | [] => some (0, [])
  | c :: cs =>
    if c = '.' || c = ',' then
      let (ds, rest) := takeDigits cs
      match fracNanos ds with
      | none => none
      | some n => some (n, rest)
    else some (0, c :: cs)

/-- The trailing `-07` numeric zone: a sign and exactly two digits, ending the string. -/
def parseZone : List Char → Option ℤ
  | c :: cs =>
    if c = '+' || c = '-' then
      match get2 cs with
      | some (hh, []) => some (if c = '-' then -(hh * 3600 : ℤ) else (hh * 3600 : ℤ))
      | _ => none
    else none
  | [] => none

/-- `time.Parse("2006-01-02 15:04:05.999-07", s)`:
parse the fields in layout order and apply Go's range validation
(month 1–12, day valid for the month, hour < 24, minute and second < 60).
`none` models a parse error. -/
def parseTimestamp (s : String) : Option GoWall :=
  match get4 s.data with
  | none => none
  | some (y, r1) =>
    match expectChar '-' r1 with
    | none => none
    | some r2 =>
      match get2 r2 with
      | none => none
      | some (mo, r3) =>
        match expectChar '-' r3 with
        | none => none
        | some r4 =>
          match get2 r4 with
          | none => none
          | some (d, r5) =>
            match expectChar ' ' r5 with
            | none => none
            | some r6 =>
              match get2 r6 with
              | none => none
              | some (h, r7) =>
                match expectChar ':' r7 with
                | none => none
                | some r8 =>
                  match get2 r8 with
                  | none => none
                  | some (mi, r9) =>
                    match expectChar ':' r9 with
                    | none => none
                    | some r10 =>
                      match get2 r10 with
                      | none => none
                      | some (sec, r11) =>
                        match parseFrac r11 with
                        | none => none
                        | some (ns, r12) =>
                          match parseZone r12 with
                          | none => none
                          | some off =>
                            if 1 ≤ mo && mo ≤ 12 && 1 ≤ d && d ≤ daysInMonth y mo &&
                                h ≤ 23 && mi ≤ 59 && sec ≤ 59 then
                              some ⟨y, mo, d, h, mi, sec, ns, off⟩
                            else none

/-! ## lineParser -/

/-- The error latched on a `lineParser` (`p.err`). -/
inductive ParseErr
  | columnOutOfRange (i n : ℕ)
  | badInt (s : String)
  | badTime (s : String)
deriving DecidableEq

/-- `lineParser`: the tab-split columns of one line and the latched error. -/
structure LineParser where
  cols : List String
  err : Option ParseErr
deriving DecidableEq

/-- `newLineParser(ln)`: Go splits the line on tab characters; a row is
modelled by its resulting column list. -/
def newLineParser (cols : List String) : LineParser := ⟨cols, none⟩

/-- `(*lineParser).getString`: returns `""` without touching anything if an
error is already latched; latches a column-out-of-range error if the index is
past the available columns; otherwise returns the column text. -/
def getString (p : LineParser) (i : ℕ) : String × LineParser :=
  match p.err with
  | some _ => ("", p)
  | none =>
    match p.cols[i]? with
    | none => ("", { p with err := some (.columnOutOfRange i p.cols.length) })
    | some s => (s, p)

/-- `(*lineParser).getInt`: `getString` followed by `strconv.ParseInt(s, 10, 32)`;
any error (including one just latched by `getString`) short-circuits with 0. -/
def getInt (p : LineParser) (i : ℕ) : ℤ × LineParser :=
  let r := getString p i
  match r.2.err with
  | some _ => (0, r.2)
  | none =>
    let v := parseInt32 r.1
    if v.2 then (wrap32 v.1, { r.2 with err := some (.badInt r.1) })
    else (wrap32 v.1, r.2)

/-- `(*lineParser).getTime`: `getString` followed by
`time.Parse(timeLayout, s)`; errors short-circuit with the zero time. -/
def getTime (p : LineParser) (i : ℕ) : GoWall × LineParser :=
  let r := getString p i
  match r.2.err with
  | some _ => (goZeroWall, r.2)
  | none =>
    match parseTimestamp r.1 with
    | none => (goZeroWall, { r.2 with err := some (.badTime r.1) })
    | some t => (t, r.2)

/-! ## Accessor call sequences (claim C4) -/

/-- One accessor call on a `lineParser`. -/
inductive Access
  | str (i : ℕ)
  | int (i : ℕ)
  | time (i : ℕ)
deriving DecidableEq

/-- Apply one accessor call, keeping only the parser state. -/
def applyAccess (p : LineParser) : Access → LineParser
  | .str i => (getString p i).2
  | .int i => (getInt p i).2
  | .time i => (getTime p i).2

/-- Run a sequence of accessor calls on a parser. -/
def runAccesses (p : LineParser) (as : List Access) : LineParser :=
  as.foldl applyAccess p

/-- Whether a single access fails on the given columns, and with which error.
This depends only on the columns, not on the parser state. -/
def accessErr (cols : List String) : Access → Option ParseErr
  | .str i =>
    match cols[i]? with
    | none => some (.columnOutOfRange i cols.length)
    | some _ => none
  | .int i =>
    match cols[i]? with
    | none => some (.columnOutOfRange i cols.length)
    | some s => if (parseInt32 s).2 then some (.badInt s) else none
  | .time i =>
    match cols[i]? with
    | none => some (.columnOutOfRange i cols.length)
    | some s =>
      match parseTimestamp s with
      | none => some (.badTime s)
      | some _ => none

/-- The error of the first failing call of a sequence, if any. -/
def firstErr (cols : List String) : List Access → Option ParseErr
  | [] => none
  | a :: as =>
    match accessErr cols a with
    | some e => some e
    | none => firstErr cols as

theorem getString_of_err (p : LineParser) (i : ℕ) (e : ParseErr) (h : p.err = some e) :
    getString p i = ("", p) := by
  unfold getString; rw [h]

theorem getInt_of_err (p : LineParser) (i : ℕ) (e : ParseErr) (h : p.err = some e) :
    getInt p i = (0, p) := by
  unfold getInt; rw [getString_of_err p i e h]; simp [h]

theorem getTime_of_err (p : LineParser) (i : ℕ) (e : ParseErr) (h : p.err = some e) :
    getTime p i = (goZeroWall, p) := by
  unfold getTime; rw [getString_of_err p i e h]; simp [h]

theorem getString_hit (p : LineParser) (i : ℕ) (s : String)
    (h : p.err = none) (hg : p.cols[i]? = some s) : getString p i = (s, p) := by
  simp only [getString, h, hg]

theorem getString_miss (p : LineParser) (i : ℕ)
    (h : p.err = none) (hg : p.cols[i]? = none) :
    getString p i = ("", { p with err := some (.columnOutOfRange i p.cols.length) }) := by
  simp only [getString, h, hg]

theorem getInt_miss (p : LineParser) (i : ℕ)
    (h : p.err = none) (hg : p.cols[i]? = none) :
    getInt p i = (0, { p with err := some (.columnOutOfRange i p.cols.length) }) := by
  simp only [getInt, getString_miss p i h hg]

theorem getInt_hit (p : LineParser) (i : ℕ) (s : String)
    (h : p.err = none) (hg : p.cols[i]? = some s) :
    getInt p i =
      if (parseInt32 s).2 then
        (wrap32 (parseInt32 s).1, { p with err := some (.badInt s) })
      else (wrap32 (parseInt32 s).1, p) := by
  simp only [getInt, getString_hit p i s h hg, h]

theorem getTime_miss (p : LineParser) (i : ℕ)
    (h : p.err = none) (hg : p.cols[i]? = none) :
    getTime p i = (goZeroWall, { p with err := some (.columnOutOfRange i p.cols.length) }) := by
  simp only [getTime, getString_miss p i h hg]

theorem getTime_hit (p : LineParser) (i : ℕ) (s : String)
    (h : p.err = none) (hg : p.cols[i]? = some s) :
    getTime p i =
      match parseTimestamp s with
      | none => (goZeroWall, { p with err := some (.badTime s) })
      | some t => (t, p) := by
  simp only [getTime, getString_hit p i s h hg, h]

theorem applyAccess_cols (p : LineParser) (a : Access) : (applyAccess p a).cols = p.cols := by
  cases h : p.err with
  | some e =>
    cases a with
    | str i => rw [applyAccess, getString_of_err p i e h]
    | int i => rw [applyAccess, getInt_of_err p i e h]
    | time i => rw [applyAccess, getTime_of_err p i e h]
  | none =>
    cases a with
    | str i =>
      cases hg : p.cols[i]? with
      | none => rw [applyAccess, getString_miss p i h hg]
      | some s => rw [applyAccess, getString_hit p i s h hg]
    | int i =>
      cases hg : p.cols[i]? with
      | none => rw [applyAccess, getInt_miss p i h hg]
      | some s =>
        rw [applyAccess, getInt_hit p i s h hg]
        split <;> rfl
    | time i =>
      cases hg : p.cols[i]? with
      | none => rw [applyAccess, getTime_miss p i h hg]
      | some s =>
        rw [applyAccess, getTime_hit p i s h hg]
        cases parseTimestamp s <;> rfl

theorem applyAccess_err (p : LineParser) (a : Access) :
    (applyAccess p a).err = match p.err with
      | some e => some e
      | none => accessErr p.cols a := by
  cases h : p.err with
  | some e =>
    cases a with
    | str i => rw [applyAccess, getString_of_err p i e h]; exact h
    | int i => rw [applyAccess, getInt_of_err p i e h]; exact h
    | time i => rw [applyAccess, getTime_of_err p i e h]; exact h
  | none =>
    cases a with
    | str i =>
      cases hg : p.cols[i]? with
      | none => rw [applyAccess, getString_miss p i h hg]; simp [accessErr, hg]
      | some s => rw [applyAccess, getString_hit p i s h hg]; simp [accessErr, hg, h]
    | int i =>
      cases hg : p.cols[i]? with
      | none => rw [applyAccess, getInt_miss p i h hg]; simp [accessErr, hg]
      | some s =>
        rw [applyAccess, getInt_hit p i s h hg]
        simp only [accessErr, hg]
        split <;> simp_all
    | time i =>
      cases hg : p.cols[i]? with
      | none => rw [applyAccess, getTime_miss p i h hg]; simp [accessErr, hg]
      | some s =>
        rw [applyAccess, getTime_hit p i s h hg]
        simp only [accessErr, hg]
        cases parseTimestamp s <;> simp [h]

theorem runAccesses_err (p : LineParser) (as : List Access) :
    (runAccesses p as).err = match p.err with
      | some e => some e
      | none => firstErr p.cols as := by
  induction as generalizing p with
  | nil =>
    rw [show runAccesses p [] = p from rfl]
    cases h : p.err <;> rfl
  | cons a as ih =>
    have hstep : runAccesses p (a :: as) = runAccesses (applyAccess p a) as := rfl
    rw [hstep, ih, applyAccess_err, applyAccess_cols]
    cases h : p.err with
    | some e => rfl
    | none =>
      show _ = firstErr p.cols (a :: as)
      rw [firstErr]

/-- C4: the first failing access (out-of-range column or failed parse) latches
its error; every later accessor call returns a zero value, leaves the parser
unchanged, and never replaces the latched error, so after any call sequence on
a fresh parser the reported error is exactly that of the first failing call. -/
theorem firstFailureWins (cols : List String) (as : List Access)
    (p : LineParser) (e : ParseErr) (i : ℕ) (h : p.err = some e) :
    (runAccesses (newLineParser cols) as).err = firstErr cols as ∧
      getString p i = ("", p) ∧ getInt p i = (0, p) ∧
      getTime p i = (goZeroWall, p) := by
  refine ⟨?_, getString_of_err p i e h, getInt_of_err p i e h, getTime_of_err p i e h⟩
  have h2 := runAccesses_err (newLineParser cols) as
  simpa [newLineParser] using h2

/-- Witness for C4 at a concrete row and call sequence: the second access is
the first to fail and its error is the one reported, while a poisoned parser
returns zero values unchanged. -/
theorem firstFailureWins_witness :
    (runAccesses (newLineParser ["7", "x", "9"]) [.int 0, .int 1, .time 5]).err =
        firstErr ["7", "x", "9"] [.int 0, .int 1, .time 5] ∧
      getString ⟨["7"], some (.badInt "x")⟩ 0 = ("", ⟨["7"], some (.badInt "x")⟩) ∧
      getInt ⟨["7"], some (.badInt "x")⟩ 0 = (0, ⟨["7"], some (.badInt "x")⟩) ∧
      getTime ⟨["7"], some (.badInt "x")⟩ 0 = (goZeroWall, ⟨["7"], some (.badInt "x")⟩) :=
  firstFailureWins ["7", "x", "9"] [.int 0, .int 1, .time 5]
    ⟨["7"], some (.badInt "x")⟩ (.badInt "x") 0 rfl

/-- C3 counterexample: on a column holding the NULL sentinel `\N`, `getInt`
and `getTime` do record a parse error on the parser instance (the claim says
no error is recorded). -/
theorem nullSentinelRecordsError :
    (getInt (newLineParser ["\\N"]) 0).1 = 0 ∧
      (getInt (newLineParser ["\\N"]) 0).2.err = some (.badInt "\\N") ∧
      (getTime (newLineParser ["\\N"]) 0).1 = goZeroWall ∧
      (getTime (newLineParser ["\\N"]) 0).2.err = some (.badTime "\\N") := by decide

theorem parseInt32_null : parseInt32 "\\N" = (0, true) := by decide

theorem parseTimestamp_null : parseTimestamp "\\N" = none := by decide

/-- C3 amended: the typed accessors do not special-case the NULL sentinel `\N`:
they attempt the parse, return the zero value, and record a parse error on the
parser instance.  (The sentinel is instead handled by callers, which compare
`getString`'s result against `\N` before using a typed accessor.) -/
theorem nullSentinelParseFails (cols : List String) (i : ℕ)
    (hg : cols[i]? = some "\\N") :
    getInt (newLineParser cols) i = (0, ⟨cols, some (.badInt "\\N")⟩) ∧
      getTime (newLineParser cols) i = (goZeroWall, ⟨cols, some (.badTime "\\N")⟩) := by
  constructor
  · rw [getInt_hit (newLineParser cols) i "\\N" rfl hg, parseInt32_null]
    rfl
  · rw [getTime_hit (newLineParser cols) i "\\N" rfl hg, parseTimestamp_null]
    rfl

/-- Witness for C3's amended claim at a concrete row. -/
theorem nullSentinelParseFails_witness :
    getInt (newLineParser ["7", "\\N"]) 1 = (0, ⟨["7", "\\N"], some (.badInt "\\N")⟩) ∧
      getTime (newLineParser ["7", "\\N"]) 1 =
        (goZeroWall, ⟨["7", "\\N"], some (.badTime "\\N")⟩) :=
  nullSentinelParseFails ["7", "\\N"] 1 (by decide)

/-! ## Civil-date arithmetic (the proleptic Gregorian calendar used by Go's
`time` package for `Date`, `Year` and Unix conversions) -/

/-- Days since 1970-01-01 of a civil date (Hinnant's `days_from_civil`). -/
def daysFromCivil (y : ℤ) (m d : ℕ) : ℤ :=
  let yy := if m ≤ 2 then y - 1 else y
  let era := Int.fdiv yy 400
  let yoe := (yy - era * 400).toNat
  let mp := (m + 9) % 12
  let doy := (153 * mp + 2) / 5 + d - 1
  let doe := yoe * 365 + yoe / 4 - yoe / 100 + doy
  era * 146097 + (doe : ℤ) - 719468

/-- Civil date of a days-since-epoch count (Hinnant's `civil_from_days`). -/
def civilFromDays (z : ℤ) : ℤ × ℕ × ℕ :=
  let z2 := z + 719468
  let era := Int.fdiv z2 146097
  let doe := (z2 - era * 146097).toNat
  let yoe := (doe - doe / 1460 + doe / 36524 - doe / 146096) / 365
  let y := (yoe : ℤ) + era * 400
  let doy := doe - (365 * yoe + yoe / 4 - yoe / 100)
  let mp := (5 * doy + 2) / 153
  let d := doy - (153 * mp + 2) / 5 + 1
  let m := if mp < 10 then mp + 3 else mp - 9
  (if m ≤ 2 then y + 1 else y, m, d)

/-- Seconds since the Unix epoch of the instant denoted by a parsed wall
reading: the wall clock interpreted in its own fixed zone offset. -/
def wallEpochSecs (w : GoWall) : ℤ :=
  daysFromCivil w.year w.month w.day * 86400 +
    (w.hour * 3600 + w.minute * 60 + w.second : ℕ) - w.offSec

/-- The calendar year of a parsed timestamp's instant in UTC (what the claim
calls "the calendar year in UTC"). -/
def utcYearOfWall (w : GoWall) : ℤ :=
  (civilFromDays (Int.fdiv (wallEpochSecs w) 86400)).1

/-- `time.Time` as an absolute instant: nanoseconds since the Unix epoch. -/
structure GoTime where
  nanos : ℤ
deriving DecidableEq

/-- The instant of a wall reading (what the JSON round trip preserves). -/
def wallInstant (w : GoWall) : GoTime :=
  ⟨wallEpochSecs w * 1000000000 + w.nanos⟩

/-- The zero `time.Time` as an instant, and `Time.IsZero`. -/
def goTimeZero : GoTime := ⟨-62135596800 * 1000000000⟩

/-- Go-map update: apply `f` to the entry for `k`, inserting `f init` if the
key is absent.  Insertion order stands in for Go's (unspecified) map order. -/
def upsert {α : Type} (k : ℤ) (f : α → α) (init : α) : List (ℤ × α) → List (ℤ × α)
  | [] => [(k, f init)]
  | (q, v) :: rest => if k = q then (q, f v) :: rest else (q, v) :: upsert k f init rest

/-- Go-map set (`m[k] = v`). -/
def setAssoc {α : Type} (k : ℤ) (v : α) : List (ℤ × α) → List (ℤ × α)
  | [] => [(k, v)]
  | (q, w) :: rest => if k = q then (q, v) :: rest else (q, w) :: setAssoc k v rest

/-- Go-map lookup. -/
def lookupAssoc {α : Type} (k : ℤ) : List (ℤ × α) → Option α
  | [] => none
  | (q, v) :: rest => if k = q then some v else lookupAssoc k rest

/-- `counts[et]++` on a Go `map[EditType]int32`: a missing key reads as 0, and
the stored count is `int32` (wraps at 2^31). -/
def bumpCount (et : ℤ) : List (ℤ × ℤ) → List (ℤ × ℤ)
  | [] => [(et, 1)]
  | (q, v) :: rest => if et = q then (q, wrap32 (v + 1)) :: rest else (q, v) :: bumpCount et rest

/-- The structure built by `readEditArchive`: year → editor id → edit type → count. -/
abbrev StatsMap := List (ℤ × List (ℤ × List (ℤ × ℤ)))

/-- One counted edit: `stats[year][editor][editType]++`, materialising the
nested maps as Go's nil-map checks do. -/
def addEdit (stats : StatsMap) (year ed et : ℤ) : StatsMap :=
  upsert year (fun em => upsert ed (bumpCount et) [] em) [] stats

/-- The per-line callback passed by `readEditArchive` to `readArchive`:
read status (column 3) and skip unless it is 2; otherwise count the edit row
under the year of the open_time timestamp (column 5), the editor id
(column 1) and the edit type code (column 2, an `int16`). -/
def editRowFn (stats : StatsMap) (p0 : LineParser) : StatsMap × LineParser :=
  let rs := getInt p0 3
  if rs.1 ≠ 2 then (stats, rs.2)
  else
    let rt := getTime rs.2 5
    let re := getInt rt.2 1
    let rc := getInt re.2 2
    (addEdit stats rt.1.year re.1 (wrap16 rc.1), rc.2)

/-- `readArchive`'s scan loop for the edit archive: run the callback on each
row in order and abort the whole run (`none`) as soon as a row leaves a parser
error, as `readArchive` does after each callback invocation. -/
def runEditLines (stats : StatsMap) : List (List String) → Option StatsMap
  | [] => some stats
  | row :: rest =>
    let r := editRowFn stats (newLineParser row)
    match r.2.err with
    | some _ => none
    | none => runEditLines r.1 rest

/-- `readEditArchive`, applied to the rows of `mbdump/edit`. -/
def readEditArchive (rows : List (List String)) : Option StatsMap :=
  runEditLines [] rows

/-- `editorInfo`: the subset of editor-table data kept per editor. -/
structure EditorInfo where
  name : String
  created : GoWall
  active : GoWall
deriving DecidableEq

/-- The per-line callback of `readEditorArchive`: id (column 0), name
(column 1), last-login (column 8); member_since (column 6) only when the
column is not the NULL sentinel, else it stays the zero time. -/
def editorRowFn (editors : List (ℤ × EditorInfo)) (p0 : LineParser) :
    List (ℤ × EditorInfo) × LineParser :=
  let rid := getInt p0 0
  let rname := getString rid.2 1
  let ract := getTime rname.2 8
  let rc6 := getString ract.2 6
  if rc6.1 ≠ "\\N" then
    let rcr := getTime rc6.2 6
    (setAssoc rid.1 ⟨rname.1, rcr.1, ract.1⟩ editors, rcr.2)
  else
    (setAssoc rid.1 ⟨rname.1, goZeroWall, ract.1⟩ editors, rc6.2)

/-- `readArchive`'s scan loop for the editor archive. -/
def runEditorLines (editors : List (ℤ × EditorInfo)) :
    List (List String) → Option (List (ℤ × EditorInfo))
  | [] => some editors
  | row :: rest =>
    let r := editorRowFn editors (newLineParser row)
    match r.2.err with
    | some _ => none
    | none => runEditorLines r.1 rest

/-- `readEditorArchive`, applied to the rows of `mbdump/editor_sanitised`. -/
def readEditorArchive (rows : List (List String)) : Option (List (ℤ × EditorInfo)) :=
  runEditorLines [] rows

/-- `mbstats.EditorStats`, the persisted record (timestamps as instants, which
is what the JSON round trip preserves). -/
structure EditorStats where
  id : ℤ
  name : String
  created : GoTime
  active : GoTime
  edits : List (ℤ × ℤ)
deriving DecidableEq

/-- `writeEditorStats`: one record per editor per year, merging whatever
metadata exists for the id (absent metadata gives an empty name and zero
times).  File-system side effects aside, the files' contents are the returned
per-year record lists. -/
def writeEditorStats (stats : StatsMap) (editors : List (ℤ × EditorInfo)) :
    List (ℤ × List EditorStats) :=
  stats.map fun ye =>
    (ye.1, ye.2.map fun ie =>
      match lookupAssoc ie.1 editors with
      | some ed => ⟨ie.1, ed.name, wallInstant ed.created, wallInstant ed.active, ie.2⟩
      | none => ⟨ie.1, "", wallInstant goZeroWall, wallInstant goZeroWall, ie.2⟩)

/-! ## Row-level behaviour of the edit callback -/

theorem parseInt32_ok_range (s : String) (v : ℤ) (h : parseInt32 s = (v, false)) :
    -2 ^ 31 ≤ v ∧ v < 2 ^ 31 := by
  unfold parseInt32 at h
  cases hs : parseIntSyntax s.data with
  | none =>
    rw [hs] at h
    have h2 : ((0 : ℤ), true) = (v, false) := h
    simp at h2
  | some w =>
    rw [hs] at h
    have h2 : (if w < -2 ^ 31 then ((-2 ^ 31 : ℤ), true)
        else if 2 ^ 31 - 1 < w then ((2 ^ 31 - 1 : ℤ), true) else (w, false)) = (v, false) := h
    split at h2
    · simp at h2
    · split at h2
      · simp at h2
      · rename_i hq1 hq2
        simp only [Prod.mk.injEq] at h2
        omega

/-- A row whose status column parses cleanly to a value other than 2 leaves
both the stats and the parser (error-free) unchanged. -/
theorem editRowFn_skip (stats : StatsMap) (row : List String) (s : String) (v : ℤ)
    (hs : row[3]? = some s) (hp : parseInt32 s = (v, false)) (hv : v ≠ 2) :
    editRowFn stats (newLineParser row) = (stats, ⟨row, none⟩) := by
  have hr := parseInt32_ok_range s v hp
  have hget : getInt (newLineParser row) 3 = (v, ⟨row, none⟩) := by
    rw [getInt_hit (newLineParser row) 3 s rfl hs, hp]
    simp [wrap32_eq_self v hr.1 hr.2]
    rfl
  unfold editRowFn
  rw [hget]
  simp [hv]

/-- A row whose status column parses to 2 and whose timestamp, editor and
type columns parse cleanly is counted under the wall-clock year written in
the timestamp, and leaves no parser error. -/
theorem editRowFn_applied (stats : StatsMap) (row : List String)
    (s3 s5 s1 s2 : String) (t : GoWall) (v1 v2 : ℤ)
    (h3 : row[3]? = some s3) (hp3 : parseInt32 s3 = (2, false))
    (h5 : row[5]? = some s5) (ht : parseTimestamp s5 = some t)
    (h1 : row[1]? = some s1) (hp1 : parseInt32 s1 = (v1, false))
    (h2 : row[2]? = some s2) (hp2 : parseInt32 s2 = (v2, false)) :
    editRowFn stats (newLineParser row) =
      (addEdit stats t.year v1 (wrap16 v2), ⟨row, none⟩) := by
  have hr1 := parseInt32_ok_range s1 v1 hp1
  have hr2 := parseInt32_ok_range s2 v2 hp2
  have hg3 : getInt (newLineParser row) 3 = (2, ⟨row, none⟩) := by
    rw [getInt_hit (newLineParser row) 3 s3 rfl h3, hp3]
    simp
    constructor
    · decide
    · rfl
  have hg5 : getTime ⟨row, none⟩ 5 = (t, ⟨row, none⟩) := by
    rw [getTime_hit ⟨row, none⟩ 5 s5 rfl h5, ht]
  have hg1 : getInt (⟨row, none⟩ : LineParser) 1 = (v1, ⟨row, none⟩) := by
    rw [getInt_hit ⟨row, none⟩ 1 s1 rfl h1, hp1]
    simp [wrap32_eq_self v1 hr1.1 hr1.2]
  have hg2 : getInt (⟨row, none⟩ : LineParser) 2 = (v2, ⟨row, none⟩) := by
    rw [getInt_hit ⟨row, none⟩ 2 s2 rfl h2, hp2]
    simp [wrap32_eq_self v2 hr2.1 hr2.2]
  unfold editRowFn
  rw [hg3]
  simp only [ne_eq, not_true_eq_false, if_neg, ite_false, hg5, hg1, hg2]

theorem runEditLines_skip (row : List String) (s : String) (v : ℤ)
    (hs : row[3]? = some s) (hp : parseInt32 s = (v, false)) (hv : v ≠ 2)
    (pre post : List (List String)) :
    ∀ stats : StatsMap,
      runEditLines stats (pre ++ row :: post) = runEditLines stats (pre ++ post) := by
  induction pre with
  | nil =>
    intro stats
    show runEditLines stats (row :: post) = runEditLines stats post
    simp only [runEditLines, editRowFn_skip stats row s v hs hp hv]
  | cons q pre ih =>
    intro stats
    simp only [List.cons_append, runEditLines]
    cases herr : (editRowFn stats (newLineParser q)).2.err with
    | some e => simp [herr]
    | none => simp only [herr]; exact ih _

/-- C6: a row whose status column parses to any value other than 2 (unknown
and future codes included) contributes to no per-year, per-editor, per-type
count: the structure returned by `readEditArchive` is the same as if the row
were not present at all. -/
theorem statusFilteredRowContributesNothing (pre post : List (List String))
    (row : List String) (s : String) (v : ℤ)
    (hs : row[3]? = some s) (hp : parseInt32 s = (v, false)) (hv : v ≠ 2) :
    readEditArchive (pre ++ row :: post) = readEditArchive (pre ++ post) :=
  runEditLines_skip row s v hs hp hv pre post []

/-- Witness for C6: a status-9 (DELETED) row between two applied rows changes
nothing about the extracted counts. -/
theorem statusFilteredRowContributesNothing_witness :
    readEditArchive
        [["1", "7", "3", "2", "0", "2019-05-01 10:00:00+00"],
         ["2", "7", "3", "9", "0", "2019-06-01 10:00:00+00"],
         ["3", "7", "3", "2", "0", "2019-07-01 10:00:00+00"]] =
      readEditArchive
        [["1", "7", "3", "2", "0", "2019-05-01 10:00:00+00"],
         ["3", "7", "3", "2", "0", "2019-07-01 10:00:00+00"]] :=
  statusFilteredRowContributesNothing
    [["1", "7", "3", "2", "0", "2019-05-01 10:00:00+00"]]
    [["3", "7", "3", "2", "0", "2019-07-01 10:00:00+00"]]
    ["2", "7", "3", "9", "0", "2019-06-01 10:00:00+00"]
    "9" 9 (by decide) (by decide) (by decide)

/-- C10: once the status column of a row parses to a value other than 2, the
callback reads no further columns, so malformed timestamp/editor/type columns
in that row can neither set a parser error nor abort the scan. -/
theorem statusFilteredRowNeverAborts (stats : StatsMap) (rest : List (List String))
    (row : List String) (s : String) (v : ℤ)
    (hs : row[3]? = some s) (hp : parseInt32 s = (v, false)) (hv : v ≠ 2) :
    (editRowFn stats (newLineParser row)).2.err = none ∧
      runEditLines stats (row :: rest) = runEditLines stats rest := by
  have h := editRowFn_skip stats row s v hs hp hv
  constructor
  · rw [h]
  · simp only [runEditLines, h]

/-- Witness for C10: a skipped row carrying garbage in the timestamp, editor
and type columns neither errors nor aborts. -/
theorem statusFilteredRowNeverAborts_witness :
    (editRowFn [] (newLineParser ["x", "zz", "yy", "3", "0", "not-a-time"])).2.err = none ∧
      runEditLines [] [["x", "zz", "yy", "3", "0", "not-a-time"]] = runEditLines [] [] :=
  statusFilteredRowNeverAborts [] [] ["x", "zz", "yy", "3", "0", "not-a-time"]
    "3" 3 (by decide) (by decide) (by decide)

/-- C2 amended: an applied row (status = 2) is counted under the calendar year
written in its timestamp — the year in the timestamp's own UTC offset — which
agrees with the UTC calendar year only when the offset does not carry the
instant across a year boundary. -/
theorem appliedRowYearBucket (stats : StatsMap) (row : List String)
    (s3 s5 s1 s2 : String) (t : GoWall) (v1 v2 : ℤ)
    (h3 : row[3]? = some s3) (hp3 : parseInt32 s3 = (2, false))
    (h5 : row[5]? = some s5) (ht : parseTimestamp s5 = some t)
    (h1 : row[1]? = some s1) (hp1 : parseInt32 s1 = (v1, false))
    (h2 : row[2]? = some s2) (hp2 : parseInt32 s2 = (v2, false)) :
    editRowFn stats (newLineParser row) =
      (addEdit stats t.year v1 (wrap16 v2), ⟨row, none⟩) :=
  editRowFn_applied stats row s3 s5 s1 s2 t v1 v2 h3 hp3 h5 ht h1 hp1 h2 hp2

/-- Witness for C2's amended claim at a concrete applied row. -/
theorem appliedRowYearBucket_witness :
    editRowFn [] (newLineParser ["1", "42", "90", "2", "0", "2019-07-01 10:00:00+00"]) =
      (addEdit [] (2019 : ℤ) 42 (wrap16 90),
        ⟨["1", "42", "90", "2", "0", "2019-07-01 10:00:00+00"], none⟩) :=
  appliedRowYearBucket [] ["1", "42", "90", "2", "0", "2019-07-01 10:00:00+00"]
    "2" "2019-07-01 10:00:00+00" "42" "90" ⟨2019, 7, 1, 10, 0, 0, 0, 0⟩ 42 90
    (by decide) (by decide) (by decide) (by decide) (by decide) (by decide)
    (by decide) (by decide)

/-- C2 counterexample: an applied row written `2020-12-31 23:00:00-05` is
counted under year 2020 (the written wall-clock year), but the UTC calendar
year of that instant is 2021 — so the bucket is not the UTC year. -/
theorem wallYearNotUtcYear :
    readEditArchive [["1", "42", "90", "2", "0", "2020-12-31 23:00:00-05"]] =
        some [(2020, [(42, [(90, 1)])])] ∧
      parseTimestamp "2020-12-31 23:00:00-05" =
        some ⟨2020, 12, 31, 23, 0, 0, 0, -18000⟩ ∧
      utcYearOfWall ⟨2020, 12, 31, 23, 0, 0, 0, -18000⟩ = 2021 ∧
      (2020 : ℤ) ≠ 2021 := by decide

/-! ## Count bounds through extraction (claim C7) -/

/-- All counts in the nested stats structure lie in `[1, n]`. -/
def countsLe (stats : StatsMap) (n : ℤ) : Prop :=
  ∀ ye ∈ stats, ∀ ie ∈ ye.2, ∀ ec ∈ ie.2, 1 ≤ ec.2 ∧ ec.2 ≤ n

theorem countsLe_mono (stats : StatsMap) (n m : ℤ) (h : countsLe stats n) (hm : n ≤ m) :
    countsLe stats m := by
  intro ye hy ie hi ec hc
  have hb := h ye hy ie hi ec hc
  exact ⟨hb.1, le_trans hb.2 hm⟩

theorem bumpCount_bounds (et n : ℤ) (hn : 0 ≤ n) (hlt : n + 1 < 2 ^ 31) :
    ∀ cs : List (ℤ × ℤ), (∀ ec ∈ cs, 1 ≤ ec.2 ∧ ec.2 ≤ n) →
      ∀ ec ∈ bumpCount et cs, 1 ≤ ec.2 ∧ ec.2 ≤ n + 1 := by
  intro cs
  induction cs with
  | nil =>
    intro _ ec hc
    simp only [bumpCount, List.mem_singleton] at hc
    rw [hc]
    exact ⟨le_refl 1, by omega⟩
  | cons q rest ih =>
    obtain ⟨k, v⟩ := q
    intro h ec hc
    rw [bumpCount] at hc
    split at hc
    · rcases List.mem_cons.mp hc with h1 | h2
      · have hv := h ⟨k, v⟩ (List.mem_cons_self _ _)
        simp only at hv
        rw [h1]
        have hw : wrap32 (v + 1) = v + 1 := wrap32_eq_self _ (by omega) (by omega)
        simp only [hw]
        omega
      · have hv := h ec (List.mem_cons_of_mem _ h2)
        exact ⟨hv.1, by omega⟩
    · rcases List.mem_cons.mp hc with h1 | h2
      · have hv := h ⟨k, v⟩ (List.mem_cons_self _ _)
        rw [h1]
        exact ⟨hv.1, by omega⟩
      · exact ih (fun x hx => h x (List.mem_cons_of_mem _ hx)) ec h2

theorem upsert_mem {α : Type} (k : ℤ) (f : α → α) (init : α) :
    ∀ (l : List (ℤ × α)) (x : ℤ × α), x ∈ upsert k f init l →
      x ∈ l ∨ ∃ v, x = (k, f v) ∧ ((k, v) ∈ l ∨ v = init) := by
  intro l
  induction l with
  | nil =>
    intro x hx
    simp only [upsert, List.mem_singleton] at hx
    exact Or.inr ⟨init, hx, Or.inr rfl⟩
  | cons q rest ih =>
    obtain ⟨q1, q2⟩ := q
    intro x hx
    rw [upsert] at hx
    split at hx
    · rename_i hk
      rcases List.mem_cons.mp hx with h1 | h2
      · exact Or.inr ⟨q2, by rw [h1, hk], Or.inl (by rw [hk]; exact List.mem_cons_self _ _)⟩
      · exact Or.inl (List.mem_cons_of_mem _ h2)
    · rcases List.mem_cons.mp hx with h1 | h2
      · exact Or.inl (by rw [h1]; exact List.mem_cons_self _ _)
      · rcases ih x h2 with hl | ⟨v, hv, hc⟩
        · exact Or.inl (List.mem_cons_of_mem _ hl)
        · refine Or.inr ⟨v, hv, ?_⟩
          rcases hc with hc | hc
          · exact Or.inl (List.mem_cons_of_mem _ hc)
          · exact Or.inr hc

theorem addEdit_countsLe (stats : StatsMap) (y e t n : ℤ) (h : countsLe stats n)
    (hn : 0 ≤ n) (hlt : n + 1 < 2 ^ 31) : countsLe (addEdit stats y e t) (n + 1) := by
  intro ye hy ie hi ec hc
  rcases upsert_mem _ _ _ stats ye hy with hmem | ⟨em, hye, hcase⟩
  · have hb := h ye hmem ie hi ec hc
    exact ⟨hb.1, by omega⟩
  · rw [hye] at hi
    simp only at hi
    have hembase : ∀ ie2 ∈ em, ∀ ec2 ∈ ie2.2, 1 ≤ ec2.2 ∧ ec2.2 ≤ n := by
      rcases hcase with hmem | hinit
      · exact fun ie2 hi2 ec2 hc2 => h (y, em) hmem ie2 hi2 ec2 hc2
      · rw [hinit]; intro ie2 hi2; simp at hi2
    rcases upsert_mem _ _ _ em ie hi with hmem2 | ⟨cs, hie, hcase2⟩
    · have hb := hembase ie hmem2 ec hc
      exact ⟨hb.1, by omega⟩
    · rw [hie] at hc
      simp only at hc
      have hcsbase : ∀ ec2 ∈ cs, 1 ≤ ec2.2 ∧ ec2.2 ≤ n := by
        rcases hcase2 with hmem3 | hinit
        · exact fun ec2 hc2 => hembase (e, cs) hmem3 ec2 hc2
        · rw [hinit]; intro ec2 hc2; simp at hc2
      exact bumpCount_bounds t n hn hlt cs hcsbase ec hc

theorem editRowFn_cases (stats : StatsMap) (p : LineParser) :
    (editRowFn stats p).1 = stats ∨
      ∃ y e t, (editRowFn stats p).1 = addEdit stats y e t := by
  simp only [editRowFn]
  split
  · exact Or.inl rfl
  · exact Or.inr ⟨_, _, _, rfl⟩

theorem runEditLines_counts :
    ∀ (rows : List (List String)) (stats out : StatsMap) (n : ℤ),
      countsLe stats n → 0 ≤ n → n + rows.length < 2 ^ 31 →
      runEditLines stats rows = some out → countsLe out (n + rows.length) := by
  intro rows
  induction rows with
  | nil =>
    intro stats out n h _ _ hrun
    simp only [runEditLines, Option.some.injEq] at hrun
    rw [← hrun]
    simpa using h
  | cons row rest ih =>
    intro stats out n h hn hlt hrun
    rw [runEditLines] at hrun
    cases herr : (editRowFn stats (newLineParser row)).2.err with
    | some e => rw [herr] at hrun; simp at hrun
    | none =>
      rw [herr] at hrun
      have hlen : ((row :: rest).length : ℤ) = (rest.length : ℤ) + 1 := by
        simp
      have hstep : countsLe (editRowFn stats (newLineParser row)).1 (n + 1) := by
        rcases editRowFn_cases stats (newLineParser row) with hc | ⟨y, e, t, hc⟩
        · rw [hc]; exact countsLe_mono _ _ _ h (by omega)
        · rw [hc]
          exact addEdit_countsLe stats y e t n h hn (by rw [hlen] at hlt; omega)
      have hres := ih _ out (n + 1) hstep (by omega) (by rw [hlen] at hlt; omega) hrun
      have heq : n + ((row :: rest).length : ℤ) = (n + 1) + rest.length := by
        rw [hlen]; ring
      rw [heq]
      exact hres

theorem writeEditorStats_edits (stats : StatsMap) (editors : List (ℤ × EditorInfo)) :
    ∀ yr ∈ writeEditorStats stats editors, ∀ rec ∈ yr.2,
      ∃ ye ∈ stats, ∃ ie ∈ ye.2, rec.edits = ie.2 := by
  intro yr hyr rec hrec
  unfold writeEditorStats at hyr
  rcases List.mem_map.mp hyr with ⟨ye, hye, hmap⟩
  rw [← hmap] at hrec
  simp only at hrec
  rcases List.mem_map.mp hrec with ⟨ie, hie, hrecmap⟩
  refine ⟨ye, hye, ie, hie, ?_⟩
  rw [← hrecmap]
  cases lookupAssoc ie.1 editors <;> rfl

/-- C7 amended: provided the edit archive has fewer than 2^31 rows (so no
per-key counter can overflow its `int32`), every `EditorStats` record built by
extraction and serialized by `writeEditorStats` maps each present edit-type
key to a count of at least 1: counts are only ever incremented on occurrence. -/
theorem serializedCountsPositive (rows : List (List String)) (stats : StatsMap)
    (editors : List (ℤ × EditorInfo))
    (hrun : readEditArchive rows = some stats) (hlen : (rows.length : ℤ) < 2 ^ 31) :
    ∀ yr ∈ writeEditorStats stats editors, ∀ rec ∈ yr.2, ∀ ec ∈ rec.edits, 1 ≤ ec.2 := by
  have hc : countsLe stats ((0 : ℤ) + rows.length) := by
    refine runEditLines_counts rows [] stats 0 ?_ le_rfl (by omega) hrun
    intro ye hy
    simp at hy
  intro yr hyr rec hrec ec hec
  rcases writeEditorStats_edits stats editors yr hyr rec hrec with ⟨ye, hye, ie, hie, hedits⟩
  rw [hedits] at hec
  exact (hc ye hye ie hie ec hec).1

/-- Witness for C7's amended claim on a two-row archive. -/
theorem serializedCountsPositive_witness :
    ∃ yr ∈ writeEditorStats [(2019, [(7, [(3, 2)])])] [], ∃ rec ∈ yr.2,
      ∃ ec ∈ rec.edits, 1 ≤ ec.2 := by
  have H := serializedCountsPositive
    [["1", "7", "3", "2", "0", "2019-05-01 10:00:00+00"],
     ["3", "7", "3", "2", "0", "2019-07-01 10:00:00+00"]]
    [(2019, [(7, [(3, 2)])])] [] (by decide) (by decide)
  refine ⟨(2019, [⟨7, "", wallInstant goZeroWall, wallInstant goZeroWall, [(3, 2)]⟩]),
    by decide, ⟨7, "", wallInstant goZeroWall, wallInstant goZeroWall, [(3, 2)]⟩,
    by decide, (3, 2), by decide, ?_⟩
  exact H (2019, [⟨7, "", wallInstant goZeroWall, wallInstant goZeroWall, [(3, 2)]⟩])
    (by decide) ⟨7, "", wallInstant goZeroWall, wallInstant goZeroWall, [(3, 2)]⟩
    (by decide) (3, 2) (by decide)

/-- A valid applied edit row (status 2, editor 42, type 90, year 2020). -/
def overflowRow : List String := ["1", "42", "90", "2", "0", "2020-01-01 00:00:00+00"]

theorem editRowFn_overflowRow (stats : StatsMap) :
    editRowFn stats (newLineParser overflowRow) =
      (addEdit stats 2020 42 90, ⟨overflowRow, none⟩) := by
  have h := editRowFn_applied stats overflowRow "2" "2020-01-01 00:00:00+00" "42" "90"
    ⟨2020, 1, 1, 0, 0, 0, 0, 0⟩ 42 90
    (by decide) (by decide) (by decide) (by decide) (by decide) (by decide)
    (by decide) (by decide)
  rw [h]
  have hw : wrap16 90 = 90 := by decide
  rw [hw]

theorem addEdit_overflowSingleton (x : ℤ) :
    addEdit [(2020, [(42, [(90, x)])])] 2020 42 90 =
      [(2020, [(42, [(90, wrap32 (x + 1))])])] := by
  simp [addEdit, upsert, bumpCount]

theorem runEditLines_overflowReplicate (k : ℕ) :
    ∀ x : ℤ, runEditLines [(2020, [(42, [(90, wrap32 x)])])] (List.replicate k overflowRow) =
      some [(2020, [(42, [(90, wrap32 (x + k))])])] := by
  induction k with
  | zero =>
    intro x
    simp [runEditLines, List.replicate]
  | succ k ih =>
    intro x
    rw [List.replicate_succ, runEditLines, editRowFn_overflowRow]
    simp only
    rw [addEdit_overflowSingleton, wrap32_wrap32_add, ih (x + 1)]
    have harg : x + 1 + (k : ℤ) = x + ((k + 1 : ℕ) : ℤ) := by push_cast; ring
    rw [harg]

/-- C7 counterexample: after 2^31 applied rows for the same year, editor and
edit type, the stored `int32` count has wrapped to −2^31, and the serialized
`EditorStats` record carries an entry whose count is not at least 1. -/
theorem editCountOverflows :
    readEditArchive (List.replicate (2 ^ 31) overflowRow) =
        some [(2020, [(42, [(90, -2 ^ 31)])])] ∧
      writeEditorStats [(2020, [(42, [(90, -2 ^ 31)])])] [] =
        [(2020, [⟨42, "", goTimeZero, goTimeZero, [(90, -2 ^ 31)]⟩])] ∧
      ¬ (1 ≤ (-2 ^ 31 : ℤ)) := by
  refine ⟨?_, by decide, by decide⟩
  have hsplit : (2 ^ 31 : ℕ) = 2 ^ 31 - 1 + 1 := by norm_num
  rw [hsplit, List.replicate_succ]
  unfold readEditArchive
  rw [runEditLines, editRowFn_overflowRow]
  simp only
  have h1 : addEdit [] 2020 42 90 = [(2020, [(42, [(90, wrap32 1)])])] := by decide
  rw [h1, runEditLines_overflowReplicate (2 ^ 31 - 1) 1]
  have hval : wrap32 (1 + ((2 ^ 31 - 1 : ℕ) : ℤ)) = -2 ^ 31 := by
    have hc : ((2 ^ 31 - 1 : ℕ) : ℤ) = 2 ^ 31 - 1 := by norm_num
    rw [hc]
    unfold wrap32
    norm_num
  rw [hval]

/-! ## Query side: the yearly average-age report (claim C8) -/

/-- Bit length, by fuelled structural recursion (fuel `n` always suffices). -/
def bitlenAux : ℕ → ℕ → ℕ
  | 0, _ => 0
  | fuel + 1, n => if n = 0 then 0 else bitlenAux fuel (n / 2) + 1

/-- Number of binary digits of `n` (0 for 0). -/
def bitlen (n : ℕ) : ℕ := bitlenAux n n

/-- Round A/B to the nearest integer, ties to even (B > 0). -/
def rdiv (A B : ℕ) : ℕ :=
  let q := A / B
  let r := A % B
  if 2 * r < B then q
  else if B < 2 * r then q + 1
  else if q % 2 = 0 then q else q + 1

/-- Round the positive rational A/B to 53 significant bits, nearest-even.
The result pair (m, e) denotes m·2^e.  The quotient is first scaled so that
its integer part has 60 binary digits, then divided with a nearest-even
rounding at the 53-bit position — no double rounding. -/
def roundPos (A B : ℕ) : ℕ × ℤ :=
  let k : ℤ := (bitlen B : ℤ) + 60 - (bitlen A : ℤ)
  let A2 := if 0 ≤ k then A * 2 ^ k.toNat else A
  let B2 := if 0 ≤ k then B else B * 2 ^ (-k).toNat
  let s := bitlen (A2 / B2) - 53
  (rdiv A2 (B2 * 2 ^ s), (s : ℤ) - k)

/-- A float64 value, exactly: the dyadic rational m·2^e. -/
structure F where
  m : ℤ
  e : ℤ
deriving DecidableEq

/-- The rational value of a float. -/
def F.val (x : F) : ℚ := (x.m : ℚ) * 2 ^ x.e

/-- Correctly rounded float64 value of the rational a/b (write 0 for the
never-exercised a = 0 and b = 0 corners). -/
def roundQ (a b : ℤ) : F :=
  if a = 0 ∨ b = 0 then ⟨0, 0⟩
  else
    let p := roundPos a.natAbs b.natAbs
    ⟨if (0 < a) = (0 < b) then (p.1 : ℤ) else -(p.1 : ℤ), p.2⟩

/-- Go `float64(x)` for an integer x. -/
def i2f (x : ℤ) : F := roundQ x 1

/-- float64 multiplication (correctly rounded). -/
def fmul (x y : F) : F :=
  let p := roundQ (x.m * y.m) 1
  ⟨p.m, p.e + x.e + y.e⟩

/-- float64 division (correctly rounded). -/
def fdiv (x y : F) : F :=
  let p := roundQ x.m y.m
  ⟨p.m, p.e + x.e - y.e⟩

/-- Integer division of a ∈ ℤ by b ∈ ℕ truncating toward zero. -/
def truncDiv (a : ℤ) (b : ℕ) : ℤ :=
  if 0 ≤ a then ((a.toNat / b : ℕ) : ℤ) else -(((-a).toNat / b : ℕ) : ℤ)

/-- Go `int64(f)` / `int(f)`: truncation toward zero.  (For values outside
the int64 range the Go result is implementation-specific; `add` only uses the
result behind a bounds check, which fails for any such value.) -/
def ftrunc (x : F) : ℤ :=
  if 0 ≤ x.e then x.m * 2 ^ x.e.toNat else truncDiv x.m (2 ^ (-x.e).toNat)

/-! ## The histogram (README embedded source: newHistogram, histogram.add) -/

/-- `bucket`: bounds are int64, the count is a Go `int`. -/
structure bucket where
  bmin : ℤ
  bmax : ℤ
  count : ℤ
deriving DecidableEq

/-- `histogram`. -/
structure histogram where
  step : F
  buckets : List bucket
  underflow : ℤ
  overflow : ℤ
deriving DecidableEq

/-- `newHistogram(min, max, nb)` (parameters named lo/hi here):
`step = float64(max-min+1) / float64(nb)` and per-bucket truncated bounds
`b.min = min + int64(float64(i)*step)`, `b.max = min + int64(float64(i+1)*step) - 1`,
all in wrapping int64 arithmetic. -/
def newHistogram (lo hi : ℤ) (nb : ℕ) : histogram :=
  let step := fdiv (i2f (wrap64 (hi - lo + 1))) (i2f nb)
  { step := step
    buckets := (List.range nb).map fun i : ℕ =>
      { bmin := wrap64 (lo + ftrunc (fmul (i2f (i : ℤ)) step))
        bmax := wrap64 (lo + ftrunc (fmul (i2f ((i : ℤ) + 1)) step) - 1)
        count := 0 }
    underflow := 0
    overflow := 0 }

/-- `histogram.add(n)`: underflow below the first bucket, overflow above the
last, otherwise the candidate index `int(float64(n-buckets[0].min)/step)`
corrected upward by one when the value exceeds that bucket's max.  `none`
models the Go panic on an out-of-range bucket index (including the
`buckets[0]` access of an empty histogram). -/
def histogram.add (h : histogram) (n : ℤ) : Option histogram :=
  match hb : h.buckets with
  | [] => none
  | b0 :: _ =>
    match h.buckets.getLast? with
    | none => none
    | some bl =>
      if n < b0.bmin then some { h with underflow := wrap64 (h.underflow + 1) }
      else if bl.bmax < n then some { h with overflow := wrap64 (h.overflow + 1) }
      else
        let i := ftrunc (fdiv (i2f (wrap64 (n - b0.bmin))) h.step)
        if hi : 0 ≤ i ∧ i.toNat < h.buckets.length then
          let j := if (h.buckets.get ⟨i.toNat, hi.2⟩).bmax < n then i.toNat + 1 else i.toNat
          if hj : j < h.buckets.length then
            let bj := h.buckets.get ⟨j, hj⟩
            some { h with buckets := h.buckets.set j { bj with count := wrap64 (bj.count + 1) } }
          else none
        else none

/-- C1 counterexample: `newHistogram(0, 1, 5)` (five buckets over a two-value
range, step 0.4) tiles as [0,-1][0,-1][0,0][1,0][1,1]; `add(1)` — a value with
min ≤ 1 ≤ max — increments bucket 3, whose computed range [1,0] is empty and
does not contain 1, while bucket 4 = [1,1], the unique bucket containing 1,
stays at zero. -/
theorem bucketChoiceWrong :
    ((newHistogram 0 1 5).add 1).map
        (fun h => h.buckets.map fun b => (b.bmin, b.bmax, b.count)) =
      some [(0, -1, 0), (0, -1, 0), (0, 0, 0), (1, 0, 1), (1, 1, 0)] := by decide

/-- C9 counterexample: for `newHistogram(0, 2^62, 1)` the value 2^62 − 1 lies
inside [min, max] and inside the single bucket [0, 2^62−1], yet
`float64(2^62−1)` rounds up to 2^62, the candidate index becomes 1, and
`h.buckets[1]` panics (modelled by `none`). -/
theorem addPanicsInRange :
    (0 : ℤ) ≤ 2 ^ 62 - 1 ∧ (2 ^ 62 - 1 : ℤ) ≤ 2 ^ 62 ∧
      (newHistogram 0 (2 ^ 62) 1).add (2 ^ 62 - 1) = none := by decide

/-- C5 counterexample: for `newHistogram(0, 2^62−2, 1)` the value 2^62 − 1 is
above the configured max, but the truncated bucket bound makes the overflow
test fail and the candidate index panics instead of incrementing overflow. -/
theorem overflowValuePanics :
    (2 ^ 62 - 2 : ℤ) < 2 ^ 62 - 1 ∧
      (newHistogram 0 (2 ^ 62 - 2) 1).add (2 ^ 62 - 1) = none := by decide

/-! ## Correctness of the float model's rounding -/

theorem bitlenAux_zero (fuel : ℕ) : bitlenAux fuel 0 = 0 := by
  cases fuel with
  | zero => rfl
  | succ f => simp [bitlenAux]

theorem bitlenAux_spec : ∀ fuel n, n ≤ fuel → 0 < n →
    2 ^ (bitlenAux fuel n - 1) ≤ n ∧ n < 2 ^ bitlenAux fuel n := by
  intro fuel
  induction fuel with
  | zero => intro n h1 h2; omega
  | succ fuel ih =>
    intro n hle hpos
    rw [bitlenAux, if_neg (by omega)]
    by_cases hh : n / 2 = 0
    · have hn1 : n = 1 := by omega
      rw [hh, bitlenAux_zero]
      subst hn1
      norm_num
    · have hrec := ih (n / 2) (by omega) (by omega)
      have h2eq : ∀ b : ℕ, 0 < b → 2 ^ b = 2 * 2 ^ (b - 1) := by
        intro b hb
        cases b with
        | zero => omega
        | succ b2 => rw [pow_succ]; ring_nf; simp
      have hbpos : 0 < bitlenAux fuel (n / 2) := by
        by_contra hc
        have hz : bitlenAux fuel (n / 2) = 0 := by omega
        rw [hz] at hrec
        simp at hrec
        omega
      have h1 := hrec.1
      have h2 := hrec.2
      have he := h2eq (bitlenAux fuel (n / 2)) hbpos
      constructor
      · have : bitlenAux fuel (n / 2) + 1 - 1 = bitlenAux fuel (n / 2) := by omega
        rw [this]
        omega
      · have he2 : 2 ^ (bitlenAux fuel (n / 2) + 1) = 2 * 2 ^ bitlenAux fuel (n / 2) := by
          rw [pow_succ]; ring
        omega

theorem bitlen_spec (n : ℕ) (h : 0 < n) :
    2 ^ (bitlen n - 1) ≤ n ∧ n < 2 ^ bitlen n :=
  bitlenAux_spec n n le_rfl h

theorem bitlen_pos (n : ℕ) (h : 0 < n) : 0 < bitlen n := by
  have hs := bitlen_spec n h
  by_contra hc
  have hz : bitlen n = 0 := by omega
  rw [hz] at hs
  simp at hs
  omega

theorem bitlen_unique (n c : ℕ) (hc : 0 < c) (h1 : 2 ^ (c - 1) ≤ n) (h2 : n < 2 ^ c) :
    bitlen n = c := by
  have hpos : 0 < n := lt_of_lt_of_le (Nat.pos_pow_of_pos _ (by norm_num)) h1
  have hs := bitlen_spec n hpos
  have hbp := bitlen_pos n hpos
  by_contra hne
  rcases Nat.lt_or_ge (bitlen n) c with hlt | hge
  · have : (2 : ℕ) ^ bitlen n ≤ 2 ^ (c - 1) :=
      Nat.pow_le_pow_right (by norm_num) (by omega)
    omega
  · have hgt : c < bitlen n := by omega
    have : (2 : ℕ) ^ c ≤ 2 ^ (bitlen n - 1) :=
      Nat.pow_le_pow_right (by norm_num) (by omega)
    omega

theorem bitlen_mul_pow2 (n j : ℕ) (h : 0 < n) : bitlen (n * 2 ^ j) = bitlen n + j := by
  have hs := bitlen_spec n h
  have hbp := bitlen_pos n h
  refine bitlen_unique _ _ (by omega) ?_ ?_
  · have he : bitlen n + j - 1 = (bitlen n - 1) + j := by omega
    rw [he, pow_add]
    exact Nat.mul_le_mul_right _ hs.1
  · rw [pow_add]
    exact (Nat.mul_lt_mul_right (by positivity)).mpr hs.2

theorem rdiv_close (A B : ℕ) (hB : 0 < B) :
    -(B : ℤ) ≤ 2 * ((rdiv A B : ℤ) * B - A) ∧ 2 * ((rdiv A B : ℤ) * B - A) ≤ B := by
  have hqr : B * (A / B) + A % B = A := Nat.div_add_mod A B
  have hr : A % B < B := Nat.mod_lt _ hB
  simp only [rdiv]
  set q := A / B with hq
  set r := A % B with hrdef
  have hA : (A : ℤ) = (B : ℤ) * (q : ℤ) + (r : ℤ) := by exact_mod_cast hqr.symm
  split
  · rename_i hc
    rw [hA]
    constructor <;> (ring_nf; omega)
  · split
    · rename_i hc1 hc2
      rw [hA]
      push_cast [Nat.cast_add]
      constructor <;> (ring_nf; omega)
    · rename_i hc1 hc2
      split
      · rw [hA]
        constructor <;> (ring_nf; omega)
      · rw [hA]
        push_cast [Nat.cast_add]
        constructor <;> (ring_nf; omega)

theorem rdiv_exact (A B : ℕ) (hB : 0 < B) (hdvd : B ∣ A) : rdiv A B = A / B := by
  obtain ⟨c, rfl⟩ := hdvd
  simp only [rdiv]
  have hz : B * c % B = 0 := Nat.mul_mod_right B c
  rw [hz]
  rw [if_pos (by omega)]

theorem zpow_two_pos (t : ℤ) : (0 : ℚ) < 2 ^ t := zpow_pos (by norm_num) t

theorem pow2_cast_nat (j : ℕ) : ((2 : ℚ) ^ (j : ℤ)) = ((2 ^ j : ℕ) : ℚ) := by
  rw [zpow_natCast]
  push_cast
  rfl

/-- The full specification of `roundPos`: a positive result within half an
ulp (relative error 2^-53) of A/B, exact whenever A/B is a dyadic N·2^t with
N ≤ 2^53. -/
theorem roundPos_spec (A B : ℕ) (hA : 0 < A) (hB : 0 < B) :
    0 < (roundPos A B).1 ∧
      |((roundPos A B).1 : ℚ) * 2 ^ (roundPos A B).2 - (A : ℚ) / B| ≤ ((A : ℚ) / B) / 2 ^ 53 ∧
      ∀ (N : ℕ) (t : ℤ), N ≤ 2 ^ 53 → (A : ℚ) / B = (N : ℚ) * 2 ^ t →
        ((roundPos A B).1 : ℚ) * 2 ^ (roundPos A B).2 = (N : ℚ) * 2 ^ t := by
  simp only [roundPos]
  set k : ℤ := (bitlen B : ℤ) + 60 - (bitlen A : ℤ) with hk
  set A2 := if 0 ≤ k then A * 2 ^ k.toNat else A with hA2def
  set B2 := if 0 ≤ k then B else B * 2 ^ (-k).toNat with hB2def
  set s := bitlen (A2 / B2) - 53 with hsdef
  have hA2pos : 0 < A2 := by rw [hA2def]; split <;> positivity
  have hB2pos : 0 < B2 := by rw [hB2def]; split <;> positivity
  have hbl : bitlen A2 = bitlen B2 + 60 := by
    rw [hA2def, hB2def]
    split
    · rename_i hk0
      rw [bitlen_mul_pow2 A _ hA]
      omega
    · rename_i hk0
      rw [bitlen_mul_pow2 B _ hB]
      omega
  have hvalAB : (A2 : ℚ) / B2 = (A : ℚ) / B * 2 ^ k := by
    rw [hA2def, hB2def]
    split
    · rename_i hk0
      have h2 : ((2 : ℚ)) ^ k = ((2 ^ k.toNat : ℕ) : ℚ) := by
        rw [← pow2_cast_nat]
        congr 1
        omega
      rw [h2]
      push_cast
      field_simp
    · rename_i hk0
      have h2 : ((2 : ℚ)) ^ k = (((2 : ℚ)) ^ ((-k).toNat : ℕ))⁻¹ := by
        rw [← zpow_natCast (2 : ℚ) ((-k).toNat), ← zpow_neg]
        congr 1
        omega
      push_cast
      rw [h2, ← div_eq_mul_inv, div_div]
  have hQ : 2 ^ 59 ≤ A2 / B2 := by
    have h1 : 2 ^ (bitlen A2 - 1) ≤ A2 := (bitlen_spec A2 hA2pos).1
    have h2 : B2 < 2 ^ bitlen B2 := (bitlen_spec B2 hB2pos).2
    have h3 : 2 ^ 59 * B2 ≤ A2 := by
      have hc1 : 2 ^ 59 * B2 < 2 ^ 59 * 2 ^ bitlen B2 := by
        exact (Nat.mul_lt_mul_left (by positivity)).mpr h2
      have hc2 : (2 : ℕ) ^ 59 * 2 ^ bitlen B2 = 2 ^ (bitlen A2 - 1) := by
        rw [← pow_add]
        congr 1
        omega
      omega
    exact (Nat.le_div_iff_mul_le hB2pos).mpr (by linarith)
  have hblQ : 60 ≤ bitlen (A2 / B2) := by
    have hQpos : 0 < A2 / B2 := by positivity
    have hs2 := bitlen_spec _ hQpos
    by_contra hcon
    have : (2 : ℕ) ^ bitlen (A2 / B2) ≤ 2 ^ 59 :=
      Nat.pow_le_pow_right (by norm_num) (by omega)
    omega
  have hsQ : bitlen (A2 / B2) = s + 53 := by omega
  -- bounds on A2 relative to B' = B2 * 2 ^ s
  have hxlb : 2 ^ 52 * (B2 * 2 ^ s) ≤ A2 := by
    have h1 : 2 ^ (s + 52) ≤ A2 / B2 := by
      have hsp := (bitlen_spec _ (by positivity : 0 < A2 / B2)).1
      rw [hsQ] at hsp
      have he : s + 53 - 1 = s + 52 := by omega
      rw [he] at hsp
      exact hsp
    have h3 : 2 ^ (s + 52) * B2 ≤ A2 / B2 * B2 := Nat.mul_le_mul_right _ h1
    have h4 : A2 / B2 * B2 ≤ A2 := Nat.div_mul_le_self A2 B2
    calc 2 ^ 52 * (B2 * 2 ^ s) = 2 ^ (s + 52) * B2 := by ring
      _ ≤ A2 / B2 * B2 := h3
      _ ≤ A2 := h4
  have hxub : A2 < 2 ^ 53 * (B2 * 2 ^ s) := by
    have h1 : A2 / B2 < 2 ^ (s + 53) := by
      have hsp := (bitlen_spec _ (by positivity : 0 < A2 / B2)).2
      rw [hsQ] at hsp
      exact hsp
    have hqr2 : B2 * (A2 / B2) + A2 % B2 = A2 := Nat.div_add_mod A2 B2
    have hr2 : A2 % B2 < B2 := Nat.mod_lt _ hB2pos
    have h3 : A2 / B2 + 1 ≤ 2 ^ (s + 53) := h1
    have h5 : B2 * (A2 / B2 + 1) ≤ B2 * 2 ^ (s + 53) := Nat.mul_le_mul_left _ h3
    have h6 : B2 * (A2 / B2 + 1) = B2 * (A2 / B2) + B2 := by ring
    have h7 : (2 : ℕ) ^ 53 * (B2 * 2 ^ s) = B2 * 2 ^ (s + 53) := by ring
    linarith [h5, h6, h7, hqr2, hr2]
  set Bp := B2 * 2 ^ s with hBp
  have hBppos : 0 < Bp := by positivity
  set m := rdiv A2 Bp with hm
  have hclose := rdiv_close A2 Bp hBppos
  rw [← hm] at hclose
  have hmpos : 0 < m := by
    rcases Nat.eq_zero_or_pos m with hz | hp
    · exfalso
      rw [hz] at hclose
      simp at hclose
      have h52 : (2 : ℤ) ^ 52 * Bp ≤ A2 := by exact_mod_cast hxlb
      have hBpZ : (0 : ℤ) < Bp := by exact_mod_cast hBppos
      nlinarith [hclose.1, h52, hBpZ]
    · exact hp
  -- value identity: A / B = (A2 / Bp) * 2 ^ (s - k)  (in ℚ)
  have hBpQ : ((Bp : ℕ) : ℚ) = (B2 : ℚ) * 2 ^ (s : ℤ) := by
    rw [hBp]
    push_cast
    rw [pow2_cast_nat]
    push_cast
    ring
  have hBpQpos : (0 : ℚ) < (Bp : ℚ) := by positivity
  have htwo : (2 : ℚ) ≠ 0 := by norm_num
  have h1 : (A2 : ℚ) / Bp = (A : ℚ) / B * 2 ^ k / 2 ^ (s : ℤ) := by
    rw [hBpQ, ← hvalAB, div_mul_eq_div_div]
  have h2 : ((2 : ℚ) ^ k) * 2 ^ ((s : ℤ) - k) = 2 ^ (s : ℤ) := by
    rw [← zpow_add₀ htwo]
    congr 1
    ring
  have hABval : (A : ℚ) / B = (A2 : ℚ) / Bp * 2 ^ ((s : ℤ) - k) := by
    have hc : (A2 : ℚ) / Bp * 2 ^ ((s : ℤ) - k)
        = (A : ℚ) / B * (2 ^ k * 2 ^ ((s : ℤ) - k)) / 2 ^ (s : ℤ) := by
      rw [h1]; ring
    rw [hc, h2]
    field_simp
    ring
  have hscale : (0 : ℚ) < 2 ^ ((s : ℤ) - k) := zpow_two_pos _
  have hxQlb : (2 : ℚ) ^ 52 ≤ (A2 : ℚ) / Bp := by
    have hle : ((2 ^ 52 * Bp : ℕ) : ℚ) ≤ (A2 : ℚ) := by
      exact_mod_cast hxlb
    rw [le_div_iff₀ hBpQpos]
    push_cast at hle
    linarith
  have hxQub : (A2 : ℚ) / Bp < (2 : ℚ) ^ 53 := by
    have hlt : (A2 : ℚ) < ((2 ^ 53 * Bp : ℕ) : ℚ) := by
      exact_mod_cast hxub
    rw [div_lt_iff₀ hBpQpos]
    push_cast at hlt
    linarith
  have hdistm : |(m : ℚ) - (A2 : ℚ) / Bp| ≤ 1 / 2 := by
    have hz1 : -(Bp : ℚ) ≤ 2 * ((m : ℚ) * Bp - A2) := by exact_mod_cast hclose.1
    have hz2 : 2 * ((m : ℚ) * Bp - A2) ≤ (Bp : ℚ) := by exact_mod_cast hclose.2
    have h2Bp : (0 : ℚ) < 2 * Bp := by positivity
    have hmul : ((m : ℚ) - (A2 : ℚ) / Bp) * (2 * Bp) = 2 * ((m : ℚ) * Bp - A2) := by
      field_simp
      ring
    rw [abs_le]
    constructor
    · have hlb : (-(1 / 2) : ℚ) * (2 * Bp) ≤ ((m : ℚ) - (A2 : ℚ) / Bp) * (2 * Bp) := by
        rw [hmul]
        calc (-(1 / 2) : ℚ) * (2 * Bp) = -(Bp : ℚ) := by ring
          _ ≤ 2 * ((m : ℚ) * Bp - A2) := hz1
      exact le_of_mul_le_mul_right hlb h2Bp
    · have hub : ((m : ℚ) - (A2 : ℚ) / Bp) * (2 * Bp) ≤ (1 / 2 : ℚ) * (2 * Bp) := by
        rw [hmul]
        calc 2 * ((m : ℚ) * Bp - A2) ≤ (Bp : ℚ) := hz2
          _ = (1 / 2 : ℚ) * (2 * Bp) := by ring
      exact le_of_mul_le_mul_right hub h2Bp
  have hmain : |(m : ℚ) * 2 ^ ((s : ℤ) - k) - (A : ℚ) / B| ≤ ((A : ℚ) / B) / 2 ^ 53 := by
    have habs : |(m : ℚ) * 2 ^ ((s : ℤ) - k) - (A : ℚ) / B|
        = |(m : ℚ) - (A2 : ℚ) / Bp| * 2 ^ ((s : ℤ) - k) := by
      rw [hABval, ← sub_mul, abs_mul, abs_of_pos hscale]
    rw [habs]
    have hABlb : (2 : ℚ) ^ 52 * 2 ^ ((s : ℤ) - k) ≤ (A : ℚ) / B := by
      rw [hABval]
      nlinarith [hxQlb, hscale]
    have h53 : 1 / 2 * 2 ^ ((s : ℤ) - k) ≤ ((A : ℚ) / B) / 2 ^ 53 := by
      rw [le_div_iff₀ (by positivity : (0 : ℚ) < 2 ^ 53)]
      have he : 1 / 2 * 2 ^ ((s : ℤ) - k) * 2 ^ 53 = (2 : ℚ) ^ 52 * 2 ^ ((s : ℤ) - k) := by
        rw [show ((2 : ℚ)) ^ (53 : ℕ) = 2 * 2 ^ (52 : ℕ) by norm_num]
        ring
      rw [he]
      exact hABlb
    calc |(m : ℚ) - (A2 : ℚ) / Bp| * 2 ^ ((s : ℤ) - k)
        ≤ 1 / 2 * 2 ^ ((s : ℤ) - k) := by nlinarith [hdistm, hscale]
      _ ≤ ((A : ℚ) / B) / 2 ^ 53 := h53
  have hexact : ∀ (N : ℕ) (t : ℤ), N ≤ 2 ^ 53 → (A : ℚ) / B = (N : ℚ) * 2 ^ t →
      (m : ℚ) * 2 ^ ((s : ℤ) - k) = (N : ℚ) * 2 ^ t := by
    intro N t hN heq
    have hdvd : Bp ∣ A2 := by
      have hx : (A2 : ℚ) / Bp = (N : ℚ) * 2 ^ (t - ((s : ℤ) - k)) := by
        have h0 : (A2 : ℚ) / Bp = ((A : ℚ) / B) * 2 ^ (-((s : ℤ) - k)) := by
          rw [hABval, mul_assoc, ← zpow_add₀ htwo]
          simp
        rw [h0, heq, mul_assoc, ← zpow_add₀ htwo]
        have hexp : t + -((s : ℤ) - k) = t - ((s : ℤ) - k) := by ring
        rw [hexp]
      set w : ℤ := t - ((s : ℤ) - k) with hw
      rcases le_or_lt 0 w with hw0 | hw0
      · -- x = N * 2^w.toNat, an integer
        have h2w : ((2 : ℚ)) ^ w = ((2 : ℚ)) ^ (w.toNat : ℕ) := by
          rw [← zpow_natCast (2 : ℚ) w.toNat]
          congr 1
          omega
        have hxx : (A2 : ℚ) = (N : ℚ) * (2 : ℚ) ^ (w.toNat : ℕ) * Bp := by
          have hx2 := hx
          rw [h2w] at hx2
          field_simp at hx2
          linear_combination hx2
        have hxeq : (A2 : ℚ) = ((N * 2 ^ w.toNat * Bp : ℕ) : ℚ) := by
          rw [hxx]
          push_cast
          ring
        have hA2eq : A2 = N * 2 ^ w.toNat * Bp := by exact_mod_cast hxeq
        exact ⟨N * 2 ^ w.toNat, by rw [hA2eq]; ring⟩
      · -- w < 0 forces w = -1 and N = 2^53, x = 2^52
        have hv : (-w).toNat = -w := by omega
        have h2w : ((2 : ℚ)) ^ (-w) = ((2 ^ (-w).toNat : ℕ) : ℚ) := by
          rw [← pow2_cast_nat, hv]
        have hxv : (A2 : ℚ) / Bp * ((2 ^ (-w).toNat : ℕ) : ℚ) = N := by
          rw [← h2w, hx, mul_assoc, ← zpow_add₀ htwo]
          simp
        have hvge : 1 ≤ (-w).toNat := by omega
        have hv1 : (-w).toNat = 1 := by
          by_contra hcon
          have hvge2 : 2 ≤ (-w).toNat := by omega
          have hpow : (4 : ℚ) ≤ ((2 ^ (-w).toNat : ℕ) : ℚ) := by
            have : (2 ^ 2 : ℕ) ≤ 2 ^ (-w).toNat := Nat.pow_le_pow_right (by norm_num) hvge2
            exact_mod_cast this
          have hNQ : (N : ℚ) ≤ 2 ^ 53 := by exact_mod_cast hN
          nlinarith [hxQlb, hxv, hpow, hNQ]
        have hx52 : (A2 : ℚ) / Bp = 2 ^ 52 := by
          rw [hv1] at hxv
          have hNQ : (N : ℚ) ≤ 2 ^ 53 := by exact_mod_cast hN
          have : (A2 : ℚ) / Bp * 2 = N := by
            rw [← hxv]
            norm_num
          nlinarith [hxQlb, this, hNQ]
        have hxx2 : (A2 : ℚ) = (2 : ℚ) ^ (52 : ℕ) * Bp := by
          rw [← hx52]
          field_simp
        have hxeq : (A2 : ℚ) = ((2 ^ 52 * Bp : ℕ) : ℚ) := by
          rw [hxx2]
          push_cast
          ring
        have hA2eq : A2 = 2 ^ 52 * Bp := by exact_mod_cast hxeq
        exact ⟨2 ^ 52, by rw [hA2eq]; ring⟩
    have hmdiv : m = A2 / Bp := rdiv_exact A2 Bp hBppos hdvd
    have hcast : (m : ℚ) = (A2 : ℚ) / Bp := by
      rw [hmdiv, Nat.cast_div hdvd (by exact_mod_cast hBppos.ne.symm)]
    rw [hcast, ← hABval, heq]
  exact ⟨hmpos, hmain, hexact⟩

theorem natAbs_cast_of_pos (a : ℤ) (ha : 0 < a) : ((a.natAbs : ℕ) : ℚ) = (a : ℚ) := by
  have h1 : a.natAbs = a.toNat := by omega
  have h2 : ((a.toNat : ℕ) : ℤ) = a := Int.toNat_of_nonneg (le_of_lt ha)
  calc ((a.natAbs : ℕ) : ℚ) = ((a.toNat : ℕ) : ℚ) := by rw [h1]
    _ = (((a.toNat : ℕ) : ℤ) : ℚ) := (Int.cast_natCast _).symm
    _ = (a : ℚ) := by rw [h2]

/-- `roundQ` on positive a, b: a positive result within relative error 2^-53
of a/b, exact whenever a/b is a dyadic N·2^t with N ≤ 2^53. -/
theorem roundQ_spec (a b : ℤ) (ha : 0 < a) (hb : 0 < b) :
    0 < (roundQ a b).val ∧
      |(roundQ a b).val - (a : ℚ) / b| ≤ ((a : ℚ) / b) / 2 ^ 53 ∧
      ∀ (N : ℕ) (t : ℤ), N ≤ 2 ^ 53 → (a : ℚ) / b = (N : ℚ) * 2 ^ t →
        (roundQ a b).val = (N : ℚ) * 2 ^ t := by
  have hcond : ¬(a = 0 ∨ b = 0) := by
    push_neg
    omega
  have hsign : (0 < a) = (0 < b) := by
    simp only [eq_iff_iff]
    constructor <;> intro <;> assumption
  have hval : (roundQ a b).val =
      ((roundPos a.natAbs b.natAbs).1 : ℚ) * 2 ^ (roundPos a.natAbs b.natAbs).2 := by
    simp only [roundQ, if_neg hcond, if_pos hsign, F.val]
    push_cast
    ring
  have hAB : ((a.natAbs : ℕ) : ℚ) / ((b.natAbs : ℕ) : ℚ) = (a : ℚ) / b := by
    rw [natAbs_cast_of_pos a ha, natAbs_cast_of_pos b hb]
  have hspec := roundPos_spec a.natAbs b.natAbs (by omega) (by omega)
  rw [hAB] at hspec
  rw [hval]
  refine ⟨?_, hspec.2.1, hspec.2.2⟩
  have h1 : (0 : ℚ) < ((roundPos a.natAbs b.natAbs).1 : ℚ) := by exact_mod_cast hspec.1
  exact mul_pos h1 (zpow_two_pos _)

theorem F.val_pos_of_m_pos (x : F) (hx : 0 < x.m) : 0 < x.val := by
  unfold F.val
  have h1 : (0 : ℚ) < (x.m : ℚ) := by exact_mod_cast hx
  exact mul_pos h1 (zpow_two_pos _)

/-- `fdiv` on positive operands: positive, within relative error 2^-53 of the
exact quotient, and exact on dyadic quotients N·2^t with N ≤ 2^53. -/
theorem fdiv_spec (x y : F) (hx : 0 < x.m) (hy : 0 < y.m) :
    0 < (fdiv x y).val ∧
      |(fdiv x y).val - x.val / y.val| ≤ (x.val / y.val) / 2 ^ 53 ∧
      ∀ (N : ℕ) (t : ℤ), N ≤ 2 ^ 53 → x.val / y.val = (N : ℚ) * 2 ^ t →
        (fdiv x y).val = (N : ℚ) * 2 ^ t := by
  have htwo : (2 : ℚ) ≠ 0 := by norm_num
  have hq := roundQ_spec x.m y.m hx hy
  have hval : (fdiv x y).val = (roundQ x.m y.m).val * 2 ^ (x.e - y.e) := by
    simp only [fdiv, F.val]
    rw [mul_assoc, ← zpow_add₀ htwo]
    congr 2
    ring
  have hratio : x.val / y.val = ((x.m : ℚ) / y.m) * 2 ^ (x.e - y.e) := by
    simp only [F.val]
    rw [mul_div_mul_comm, ← zpow_sub₀ htwo]
  set S := (2 : ℚ) ^ (x.e - y.e) with hS
  have hSpos : (0 : ℚ) < S := zpow_two_pos _
  refine ⟨?_, ?_, ?_⟩
  · rw [hval]
    exact mul_pos hq.1 hSpos
  · rw [hval, hratio, ← sub_mul, abs_mul, abs_of_pos hSpos]
    have h1 := hq.2.1
    calc |(roundQ x.m y.m).val - (x.m : ℚ) / y.m| * S
        ≤ (((x.m : ℚ) / y.m) / 2 ^ 53) * S := by
          exact mul_le_mul_of_nonneg_right h1 (le_of_lt hSpos)
      _ = ((x.m : ℚ) / y.m * S) / 2 ^ 53 := by ring
  · intro N t hN heq
    rw [hratio] at heq
    have hm : (x.m : ℚ) / y.m = (N : ℚ) * 2 ^ (t - (x.e - y.e)) := by
      have hiS : ((x.m : ℚ) / y.m) = (N : ℚ) * 2 ^ t / S := by
        rw [← heq]
        field_simp
        try ring
      rw [hiS, hS]
      rw [div_eq_mul_inv, ← zpow_neg, mul_assoc, ← zpow_add₀ htwo]
      have hexp : t + -(x.e - y.e) = t - (x.e - y.e) := by ring
      rw [hexp]
    have := hq.2.2 N (t - (x.e - y.e)) hN hm
    rw [hval, hS, this, mul_assoc, ← zpow_add₀ htwo]
    have hexp2 : t - (x.e - y.e) + (x.e - y.e) = t := by ring
    rw [hexp2]

/-- `fmul` on positive operands: positive, within relative error 2^-53 of the
exact product, and exact on dyadic products N·2^t with N ≤ 2^53. -/
theorem fmul_spec (x y : F) (hx : 0 < x.m) (hy : 0 < y.m) :
    0 < (fmul x y).val ∧
      |(fmul x y).val - x.val * y.val| ≤ (x.val * y.val) / 2 ^ 53 ∧
      ∀ (N : ℕ) (t : ℤ), N ≤ 2 ^ 53 → x.val * y.val = (N : ℚ) * 2 ^ t →
        (fmul x y).val = (N : ℚ) * 2 ^ t := by
  have htwo : (2 : ℚ) ≠ 0 := by norm_num
  have hq := roundQ_spec (x.m * y.m) 1 (by positivity) (by norm_num)
  have hq1 : ((1 : ℤ) : ℚ) = 1 := by norm_num
  rw [hq1, div_one] at hq
  have hval : (fmul x y).val = (roundQ (x.m * y.m) 1).val * 2 ^ (x.e + y.e) := by
    simp only [fmul, F.val]
    rw [mul_assoc, ← zpow_add₀ htwo]
    congr 2
    ring
  have hratio : x.val * y.val = ((x.m * y.m : ℤ) : ℚ) * 2 ^ (x.e + y.e) := by
    simp only [F.val]
    push_cast
    rw [zpow_add₀ htwo]
    ring
  set S := (2 : ℚ) ^ (x.e + y.e) with hS
  have hSpos : (0 : ℚ) < S := zpow_two_pos _
  refine ⟨?_, ?_, ?_⟩
  · rw [hval]
    exact mul_pos hq.1 hSpos
  · rw [hval, hratio, ← sub_mul, abs_mul, abs_of_pos hSpos]
    calc |(roundQ (x.m * y.m) 1).val - ((x.m * y.m : ℤ) : ℚ)| * S
        ≤ (((x.m * y.m : ℤ) : ℚ) / 2 ^ 53) * S := by
          exact mul_le_mul_of_nonneg_right hq.2.1 (le_of_lt hSpos)
      _ = (((x.m * y.m : ℤ) : ℚ) * S) / 2 ^ 53 := by ring
  · intro N t hN heq
    rw [hratio] at heq
    have hm : ((x.m * y.m : ℤ) : ℚ) = (N : ℚ) * 2 ^ (t - (x.e + y.e)) := by
      have hiS : ((x.m * y.m : ℤ) : ℚ) = (N : ℚ) * 2 ^ t / S := by
        rw [← heq]
        field_simp
        try ring
      rw [hiS, hS]
      rw [div_eq_mul_inv, ← zpow_neg, mul_assoc, ← zpow_add₀ htwo]
      have hexp : t + -(x.e + y.e) = t - (x.e + y.e) := by ring
      rw [hexp]
    have := hq.2.2 N (t - (x.e + y.e)) hN hm
    rw [hval, hS, this, mul_assoc, ← zpow_add₀ htwo]
    have hexp2 : t - (x.e + y.e) + (x.e + y.e) = t := by ring
    rw [hexp2]

theorem i2f_zero_val : (i2f 0).val = 0 := by
  simp [i2f, roundQ, F.val]

/-- `i2f` on a positive integer: positive, within relative error 2^-53, exact
up to 2^53. -/
theorem i2f_spec (x : ℤ) (hx : 0 < x) :
    0 < (i2f x).val ∧ |(i2f x).val - (x : ℚ)| ≤ (x : ℚ) / 2 ^ 53 ∧
      (∀ N : ℕ, N ≤ 2 ^ 53 → x = (N : ℤ) → (i2f x).val = (N : ℚ)) := by
  simp only [i2f]
  have hq := roundQ_spec x 1 hx (by norm_num)
  have hq1 : ((1 : ℤ) : ℚ) = 1 := by norm_num
  rw [hq1, div_one] at hq
  refine ⟨hq.1, hq.2.1, ?_⟩
  intro N hN hxN
  have h := hq.2.2 N 0 hN (by rw [hxN]; norm_num)
  rw [h]
  norm_num

/-- `ftrunc` on a float with non-negative mantissa: truncation toward zero. -/
theorem ftrunc_spec (x : F) (hm : 0 ≤ x.m) :
    0 ≤ ftrunc x ∧ (ftrunc x : ℚ) ≤ x.val ∧ x.val < (ftrunc x : ℚ) + 1 := by
  unfold ftrunc
  split
  · rename_i he
    have hval : x.val = ((x.m * 2 ^ x.e.toNat : ℤ) : ℚ) := by
      unfold F.val
      push_cast
      congr 1
      rw [← zpow_natCast (2 : ℚ) x.e.toNat]
      congr 1
      omega
    rw [hval]
    refine ⟨by positivity, le_refl _, by linarith⟩
  · rename_i he
    have hjx : (((-x.e).toNat : ℕ) : ℤ) = -x.e := by omega
    have hval : x.val = (x.m : ℚ) / ((2 ^ (-x.e).toNat : ℕ) : ℚ) := by
      unfold F.val
      rw [div_eq_mul_inv, ← pow2_cast_nat, ← zpow_neg, hjx, neg_neg]
    have htd : truncDiv x.m (2 ^ (-x.e).toNat) = ((x.m.toNat / 2 ^ (-x.e).toNat : ℕ) : ℤ) := by
      unfold truncDiv
      rw [if_pos hm]
    have hmq : (x.m : ℚ) = ((x.m.toNat : ℕ) : ℚ) := by
      have h0 : (x.m.toNat : ℤ) = x.m := Int.toNat_of_nonneg hm
      exact_mod_cast h0.symm
    have hpow_pos : (0 : ℚ) < ((2 ^ (-x.e).toNat : ℕ) : ℚ) := by positivity
    refine ⟨by rw [htd]; positivity, ?_, ?_⟩
    · rw [htd, hval, hmq, le_div_iff₀ hpow_pos]
      have h1 : (x.m.toNat / 2 ^ (-x.e).toNat) * 2 ^ (-x.e).toNat ≤ x.m.toNat :=
        Nat.div_mul_le_self _ _
      exact_mod_cast h1
    · rw [htd, hval, hmq, div_lt_iff₀ hpow_pos]
      have hqr : 2 ^ (-x.e).toNat * (x.m.toNat / 2 ^ (-x.e).toNat) + x.m.toNat % 2 ^ (-x.e).toNat
          = x.m.toNat := Nat.div_add_mod _ _
      have hrl : x.m.toNat % 2 ^ (-x.e).toNat < 2 ^ (-x.e).toNat :=
        Nat.mod_lt _ (by positivity)
      have h1 : x.m.toNat < (x.m.toNat / 2 ^ (-x.e).toNat + 1) * 2 ^ (-x.e).toNat := by
        have hexp : (x.m.toNat / 2 ^ (-x.e).toNat + 1) * 2 ^ (-x.e).toNat
            = 2 ^ (-x.e).toNat * (x.m.toNat / 2 ^ (-x.e).toNat) + 2 ^ (-x.e).toNat := by ring
        linarith [hqr, hrl, hexp]
      calc ((x.m.toNat : ℕ) : ℚ)
          < (((x.m.toNat / 2 ^ (-x.e).toNat + 1) * 2 ^ (-x.e).toNat : ℕ) : ℚ) := by
            exact_mod_cast h1
        _ = (((x.m.toNat / 2 ^ (-x.e).toNat : ℕ) : ℚ) + 1) * ((2 ^ (-x.e).toNat : ℕ) : ℚ) := by
            push_cast
            ring

theorem F.m_pos (x : F) (h : 0 < x.val) : 0 < x.m := by
  by_contra hc
  push_neg at hc
  have h1 : (x.m : ℚ) ≤ 0 := by exact_mod_cast hc
  have h2 : x.val ≤ 0 := mul_nonpos_of_nonpos_of_nonneg h1 (le_of_lt (zpow_two_pos _))
  linarith

theorem i2f_exact_int (x : ℤ) (h1 : 0 < x) (h2 : x ≤ 2 ^ 53) : (i2f x).val = (x : ℚ) := by
  have hN : x.toNat ≤ 2 ^ 53 := by omega
  have hx : x = (x.toNat : ℤ) := by omega
  have h := (i2f_spec x h1).2.2 x.toNat hN hx
  rw [h]
  exact_mod_cast congrArg (fun z : ℤ => (z : ℚ)) hx.symm

/-- The step float of `newHistogram lo hi nb`. -/
def hstepF (lo hi : ℤ) (nb : ℕ) : F := fdiv (i2f (wrap64 (hi - lo + 1))) (i2f (nb : ℤ))

/-- The truncated scaled offset `int64(float64(j) * step)` used for bucket
bounds. -/
def tval (lo hi : ℤ) (nb : ℕ) (j : ℕ) : ℤ := ftrunc (fmul (i2f (j : ℤ)) (hstepF lo hi nb))

theorem newHistogram_step (lo hi : ℤ) (nb : ℕ) :
    (newHistogram lo hi nb).step = hstepF lo hi nb := rfl

theorem newHistogram_buckets_length (lo hi : ℤ) (nb : ℕ) :
    (newHistogram lo hi nb).buckets.length = nb := by
  simp [newHistogram]

theorem newHistogram_buckets_getElem (lo hi : ℤ) (nb : ℕ) (i : ℕ) (h : i < nb) :
    (newHistogram lo hi nb).buckets[i]? =
      some ⟨wrap64 (lo + tval lo hi nb i), wrap64 (lo + tval lo hi nb (i + 1) - 1), 0⟩ := by
  have h1 : (newHistogram lo hi nb).buckets =
      (List.range nb).map (fun j : ℕ =>
        ⟨wrap64 (lo + tval lo hi nb j), wrap64 (lo + tval lo hi nb (j + 1) - 1), 0⟩) := rfl
  rw [h1, List.getElem?_map]
  simp [List.getElem?_range, h]

theorem newHistogram_underflow (lo hi : ℤ) (nb : ℕ) :
    (newHistogram lo hi nb).underflow = 0 := rfl

theorem newHistogram_overflow (lo hi : ℤ) (nb : ℕ) :
    (newHistogram lo hi nb).overflow = 0 := rfl

/-- Bounds on the computed step: positive, and `step * nb` lies within
relative error `4/2^53` of `max - min + 1`. -/
theorem hstepF_bounds (lo hi : ℤ) (nb : ℕ) (h3 : lo ≤ hi) (h4 : hi - lo + 1 ≤ 2 ^ 50)
    (h5 : 1 ≤ nb) :
    0 < (hstepF lo hi nb).val ∧
      (hstepF lo hi nb).val * nb ≤ ((hi - lo + 1 : ℤ) : ℚ) * (1 + 4 / 2 ^ 53) ∧
      ((hi - lo + 1 : ℤ) : ℚ) * (1 - 4 / 2 ^ 53) ≤ (hstepF lo hi nb).val * nb := by
  have hR1 : (1 : ℤ) ≤ hi - lo + 1 := by omega
  have hwrap : wrap64 (hi - lo + 1) = hi - lo + 1 := wrap64_eq_self _ (by omega) (by omega)
  have hRval : (i2f (wrap64 (hi - lo + 1))).val = ((hi - lo + 1 : ℤ) : ℚ) := by
    rw [hwrap]
    exact i2f_exact_int _ (by omega) (by omega)
  have hRpos : (0 : ℚ) < ((hi - lo + 1 : ℤ) : ℚ) := by exact_mod_cast hR1
  have hRub : ((hi - lo + 1 : ℤ) : ℚ) ≤ 2 ^ 50 := by exact_mod_cast h4
  have hnbZ : (0 : ℤ) < (nb : ℤ) := by exact_mod_cast h5
  have hnbQ : (1 : ℚ) ≤ (nb : ℚ) := by exact_mod_cast h5
  have hvnb := i2f_spec (nb : ℤ) hnbZ
  have hvnbpos : 0 < (i2f (nb : ℤ)).val := hvnb.1
  have hfd := fdiv_spec (i2f (wrap64 (hi - lo + 1))) (i2f (nb : ℤ))
    (F.m_pos _ (by rw [F.val] at hRval ⊢; rw [hRval]; exact hRpos))
    (F.m_pos _ hvnbpos)
  set σ := (hstepF lo hi nb).val with hσ
  set vnb := (i2f (nb : ℤ)).val with hvnbdef
  set R : ℚ := ((hi - lo + 1 : ℤ) : ℚ) with hRdef
  have hfd1 : 0 < σ := hfd.1
  have hfd2 : |σ - (i2f (wrap64 (hi - lo + 1))).val / vnb| ≤
      ((i2f (wrap64 (hi - lo + 1))).val / vnb) / 2 ^ 53 := hfd.2.1
  rw [hRval] at hfd2
  -- multiply through by vnb > 0
  have hprod : |σ * vnb - R| ≤ R / 2 ^ 53 := by
    have habs := abs_le.mp hfd2
    have hid : R / vnb * vnb = R := by field_simp
    rw [abs_le]
    constructor
    · nlinarith [habs.1, hvnbpos, hid]
    · nlinarith [habs.2, hvnbpos, hid]
  have habs2 := abs_le.mp hprod
  have hnb1 := abs_le.mp hvnb.2.1
  -- casts: (↑(nb:ℤ) : ℚ) = (nb : ℚ)
  have hcast : (((nb : ℤ)) : ℚ) = (nb : ℚ) := by push_cast; rfl
  rw [hcast] at hnb1
  have hvnb_ub : vnb ≤ (nb : ℚ) * (1 + 1 / 2 ^ 53) := by nlinarith [hnb1.2, hnbQ]
  have hvnb_lb : (nb : ℚ) * (1 - 1 / 2 ^ 53) ≤ vnb := by nlinarith [hnb1.1, hnbQ]
  refine ⟨hfd1, ?_, ?_⟩
  · -- σ * nb * (1 - u) ≤ σ * vnb ≤ R (1 + u) ≤ R (1 + 4u)(1 - u)
    have hA : σ * (nb : ℚ) * (1 - 1 / 2 ^ 53) ≤ σ * vnb := by nlinarith [hvnb_lb, hfd1]
    have hB : σ * vnb ≤ R * (1 + 1 / 2 ^ 53) := by nlinarith [habs2.2]
    have hC : R * (1 + 1 / 2 ^ 53) ≤ R * (1 + 4 / 2 ^ 53) * (1 - 1 / 2 ^ 53) := by
      nlinarith [hRpos]
    have hD : σ * (nb : ℚ) * (1 - 1 / 2 ^ 53) ≤ R * (1 + 4 / 2 ^ 53) * (1 - 1 / 2 ^ 53) := by
      linarith
    have hu : (0 : ℚ) < 1 - 1 / 2 ^ 53 := by norm_num
    exact le_of_mul_le_mul_right hD hu
  · have hA : σ * vnb ≤ σ * (nb : ℚ) * (1 + 1 / 2 ^ 53) := by nlinarith [hvnb_ub, hfd1]
    have hB : R * (1 - 1 / 2 ^ 53) ≤ σ * vnb := by nlinarith [habs2.1]
    have hC : R * (1 - 4 / 2 ^ 53) * (1 + 1 / 2 ^ 53) ≤ R * (1 - 1 / 2 ^ 53) := by
      nlinarith [hRpos]
    have hD : R * (1 - 4 / 2 ^ 53) * (1 + 1 / 2 ^ 53) ≤ σ * (nb : ℚ) * (1 + 1 / 2 ^ 53) := by
      linarith
    have hu : (0 : ℚ) < 1 + 1 / 2 ^ 53 := by norm_num
    exact le_of_mul_le_mul_right hD hu

theorem tval_zero (lo hi : ℤ) (nb : ℕ) : tval lo hi nb 0 = 0 := by
  have h0 : i2f ((0 : ℕ) : ℤ) = ⟨0, 0⟩ := rfl
  simp only [tval, h0, fmul, i2f, roundQ, zero_mul]
  simp [ftrunc, truncDiv]

theorem tval_nonneg (lo hi : ℤ) (nb : ℕ) (j : ℕ) (h3 : lo ≤ hi) (h4 : hi - lo + 1 ≤ 2 ^ 50)
    (h5 : 1 ≤ nb) : 0 ≤ tval lo hi nb j := by
  rcases Nat.eq_zero_or_pos j with hj | hj
  · rw [hj, tval_zero]
  · have hσ := (hstepF_bounds lo hi nb h3 h4 h5).1
    have hjZ : (0 : ℤ) < (j : ℤ) := by exact_mod_cast hj
    have hjf := i2f_spec (j : ℤ) hjZ
    have hf := fmul_spec (i2f (j : ℤ)) (hstepF lo hi nb) (F.m_pos _ hjf.1) (F.m_pos _ hσ)
    have ht := ftrunc_spec (fmul (i2f (j : ℤ)) (hstepF lo hi nb))
      (le_of_lt (F.m_pos _ hf.1))
    exact ht.1

/-- For `1 ≤ j`, the truncated bucket offset `tval j` is within one unit of
`j * step.val` up to squared relative rounding error. -/
theorem tval_bounds (lo hi : ℤ) (nb : ℕ) (j : ℕ) (hj : 1 ≤ j)
    (h3 : lo ≤ hi) (h4 : hi - lo + 1 ≤ 2 ^ 50) (h5 : 1 ≤ nb) :
    (j : ℚ) * (hstepF lo hi nb).val * (1 - 1 / 2 ^ 53) ^ 2 - 1 < (tval lo hi nb j : ℚ) ∧
      (tval lo hi nb j : ℚ) ≤ (j : ℚ) * (hstepF lo hi nb).val * (1 + 1 / 2 ^ 53) ^ 2 := by
  have hσpos := (hstepF_bounds lo hi nb h3 h4 h5).1
  set σ := (hstepF lo hi nb).val with hσdef
  have hjZ : (0 : ℤ) < (j : ℤ) := by exact_mod_cast hj
  have hjQ : (1 : ℚ) ≤ (j : ℚ) := by exact_mod_cast hj
  have hjf := i2f_spec (j : ℤ) hjZ
  have hcast : (((j : ℕ) : ℤ) : ℚ) = (j : ℚ) := by push_cast; rfl
  have hvj := abs_le.mp hjf.2.1
  rw [hcast] at hvj
  set vj := (i2f (j : ℤ)).val with hvjdef
  have hvjpos : 0 < vj := hjf.1
  have hf := fmul_spec (i2f (j : ℤ)) (hstepF lo hi nb) (F.m_pos _ hjf.1) (F.m_pos _ hσpos)
  have hV := abs_le.mp hf.2.1
  set V := (fmul (i2f (j : ℤ)) (hstepF lo hi nb)).val with hVdef
  have ht := ftrunc_spec (fmul (i2f (j : ℤ)) (hstepF lo hi nb)) (le_of_lt (F.m_pos _ hf.1))
  have hTle : (ftrunc (fmul (i2f (j : ℤ)) (hstepF lo hi nb)) : ℚ) ≤ V := ht.2.1
  have hTgt : V < (ftrunc (fmul (i2f (j : ℤ)) (hstepF lo hi nb)) : ℚ) + 1 := ht.2.2
  have hTdef : (tval lo hi nb j : ℚ) = (ftrunc (fmul (i2f (j : ℤ)) (hstepF lo hi nb)) : ℚ) := rfl
  have hvj_ub : vj ≤ (j : ℚ) * (1 + 1 / 2 ^ 53) := by nlinarith [hvj.2]
  have hvj_lb : (j : ℚ) * (1 - 1 / 2 ^ 53) ≤ vj := by nlinarith [hvj.1]
  have hVub : V ≤ vj * σ * (1 + 1 / 2 ^ 53) := by nlinarith [hV.2, hvjpos, hσpos]
  have hVlb : vj * σ * (1 - 1 / 2 ^ 53) ≤ V := by nlinarith [hV.1, hvjpos, hσpos]
  have hVub2 : V ≤ (j : ℚ) * σ * (1 + 1 / 2 ^ 53) ^ 2 := by
    nlinarith [mul_le_mul_of_nonneg_right hvj_ub
      (by positivity : (0 : ℚ) ≤ σ * (1 + 1 / 2 ^ 53)), hVub]
  have hVlb2 : (j : ℚ) * σ * (1 - 1 / 2 ^ 53) ^ 2 ≤ V := by
    nlinarith [mul_le_mul_of_nonneg_right hvj_lb
      (by positivity : (0 : ℚ) ≤ σ * (1 - 1 / 2 ^ 53)), hVlb]
  rw [hTdef]
  constructor
  · linarith
  · linarith

/-- Every bucket offset stays at or below the range width `R = hi - lo + 1`. -/
theorem tval_le_R (lo hi : ℤ) (nb : ℕ) (j : ℕ) (hjnb : j ≤ nb)
    (h3 : lo ≤ hi) (h4 : hi - lo + 1 ≤ 2 ^ 50) (h5 : 1 ≤ nb) :
    tval lo hi nb j ≤ hi - lo + 1 := by
  rcases Nat.eq_zero_or_pos j with hj | hj
  · rw [hj, tval_zero]; omega
  · have hb := hstepF_bounds lo hi nb h3 h4 h5
    have hσpos := hb.1
    set σ := (hstepF lo hi nb).val with hσdef
    have hub := (tval_bounds lo hi nb j hj h3 h4 h5).2
    have hjnbQ : (j : ℚ) ≤ (nb : ℚ) := by exact_mod_cast hjnb
    have hRQ1 : (1 : ℚ) ≤ ((hi - lo + 1 : ℤ) : ℚ) := by exact_mod_cast (by omega : (1:ℤ) ≤ hi - lo + 1)
    have hRQ2 : ((hi - lo + 1 : ℤ) : ℚ) ≤ 2 ^ 50 := by exact_mod_cast h4
    have hnσ : σ * (nb : ℚ) ≤ ((hi - lo + 1 : ℤ) : ℚ) * (1 + 4 / 2 ^ 53) := hb.2.1
    have hjσ : (j : ℚ) * σ ≤ σ * (nb : ℚ) := by nlinarith [hσpos, hjnbQ]
    have hQ : (tval lo hi nb j : ℚ) < ((hi - lo + 1 : ℤ) : ℚ) + 1 := by
      nlinarith [hub, hjσ, hnσ, hRQ1, hRQ2, hσpos]
    have hZ : (tval lo hi nb j : ℤ) < (hi - lo + 1) + 1 := by exact_mod_cast hQ
    omega

theorem cand_zero (s : F) : ftrunc (fdiv (i2f 0) s) = 0 := by
  have h0 : i2f 0 = ⟨0, 0⟩ := rfl
  simp only [fdiv, h0, roundQ]
  simp [ftrunc, truncDiv]

/-- The candidate bucket index `int(float64(d) / step)` is in `[0, nb)` for
every offset `d` between 0 and the last bucket's upper offset. -/
theorem cand_bounds (lo hi : ℤ) (nb : ℕ) (d : ℤ)
    (h3 : lo ≤ hi) (h4 : hi - lo + 1 ≤ 2 ^ 50) (h5 : 1 ≤ nb)
    (hd0 : 0 ≤ d) (hd1 : d ≤ tval lo hi nb nb - 1) :
    0 ≤ ftrunc (fdiv (i2f d) (hstepF lo hi nb)) ∧
      ftrunc (fdiv (i2f d) (hstepF lo hi nb)) < (nb : ℤ) := by
  rcases eq_or_lt_of_le hd0 with hd | hd
  · rw [← hd, cand_zero]
    constructor
    · omega
    · exact_mod_cast h5
  · have hTR := tval_le_R lo hi nb nb (le_refl nb) h3 h4 h5
    have hvd : (i2f d).val = (d : ℚ) := i2f_exact_int d hd (by omega)
    have hb := hstepF_bounds lo hi nb h3 h4 h5
    set σ := (hstepF lo hi nb).val with hσdef
    have hσpos : 0 < σ := hb.1
    have hfd := fdiv_spec (i2f d) (hstepF lo hi nb) (F.m_pos _ (i2f_spec d hd).1)
      (F.m_pos _ hσpos)
    set vc := (fdiv (i2f d) (hstepF lo hi nb)).val with hvcdef
    have ht := ftrunc_spec (fdiv (i2f d) (hstepF lo hi nb)) (le_of_lt (F.m_pos _ hfd.1))
    refine ⟨ht.1, ?_⟩
    have habs := abs_le.mp hfd.2.1
    rw [hvd] at habs
    -- multiply the relative-error bound through by σ
    have hid : (d : ℚ) / σ * σ = (d : ℚ) := by field_simp
    have hdQ : (0 : ℚ) < (d : ℚ) := by exact_mod_cast hd
    have hvcσ : vc * σ ≤ (d : ℚ) * (1 + 1 / 2 ^ 53) := by nlinarith [habs.2, hσpos, hid]
    set A : ℚ := σ * (nb : ℚ) with hAdef
    have hTq : (tval lo hi nb nb : ℚ) ≤ (nb : ℚ) * σ * (1 + 1 / 2 ^ 53) ^ 2 :=
      (tval_bounds lo hi nb nb h5 h3 h4 h5).2
    have hdT : (d : ℚ) ≤ (tval lo hi nb nb : ℚ) - 1 := by
      have : ((d : ℤ) : ℚ) ≤ ((tval lo hi nb nb - 1 : ℤ) : ℚ) := by exact_mod_cast hd1
      push_cast at this
      linarith
    have hdA : (d : ℚ) ≤ A * (1 + 1 / 2 ^ 53) ^ 2 - 1 := by
      rw [hAdef]
      nlinarith [hTq, hdT]
    have hRq1 : (1 : ℚ) ≤ ((hi - lo + 1 : ℤ) : ℚ) := by
      exact_mod_cast (by omega : (1 : ℤ) ≤ hi - lo + 1)
    have hRq2 : ((hi - lo + 1 : ℤ) : ℚ) ≤ 2 ^ 50 := by exact_mod_cast h4
    have hA_ub : A ≤ ((hi - lo + 1 : ℤ) : ℚ) * (1 + 4 / 2 ^ 53) := hb.2.1
    have hA_ub2 : A ≤ 2 ^ 50 * (1 + 4 / 2 ^ 53) := by nlinarith [hA_ub, hRq2]
    have hApos : 0 < A := by
      have : (1 : ℚ) ≤ (nb : ℚ) := by exact_mod_cast h5
      rw [hAdef]; nlinarith [hσpos]
    -- A * ((1+u)^3 - 1) < 1
    have hsmall : A * ((1 + 1 / 2 ^ 53) ^ 3 - 1) < 1 := by
      have hmono : A * ((1 + 1 / 2 ^ 53) ^ 3 - 1) ≤
          2 ^ 50 * (1 + 4 / 2 ^ 53) * ((1 + 1 / 2 ^ 53) ^ 3 - 1) :=
        mul_le_mul_of_nonneg_right hA_ub2 (by norm_num)
      have hnum : (2 ^ 50 * (1 + 4 / 2 ^ 53) * ((1 + 1 / 2 ^ 53) ^ 3 - 1) : ℚ) < 1 := by
        norm_num
      linarith
    have hs1 : (d : ℚ) * (1 + 1 / 2 ^ 53) ≤ (A * (1 + 1 / 2 ^ 53) ^ 2 - 1) * (1 + 1 / 2 ^ 53) :=
      mul_le_mul_of_nonneg_right hdA (by norm_num)
    have hs2 : (A * (1 + 1 / 2 ^ 53) ^ 2 - 1) * (1 + 1 / 2 ^ 53) < A := by nlinarith [hsmall]
    have hcσ : (ftrunc (fdiv (i2f d) (hstepF lo hi nb)) : ℚ) * σ < A := by
      nlinarith [ht.2.1, hσpos, hvcσ, hs1, hs2]
    have hclt : (ftrunc (fdiv (i2f d) (hstepF lo hi nb)) : ℚ) < (nb : ℚ) := by
      have h2 : (ftrunc (fdiv (i2f d) (hstepF lo hi nb)) : ℚ) * σ < (nb : ℚ) * σ := by
        rw [hAdef] at hcσ
        nlinarith [hcσ]
      exact lt_of_mul_lt_mul_right h2 (le_of_lt hσpos)
    exact_mod_cast hclt

/-- Under the range hypotheses no bucket bound wraps. -/
theorem newHistogram_bucket_bounds (lo hi : ℤ) (nb : ℕ) (i : ℕ) (hi2 : i < nb)
    (hlo : -2 ^ 62 ≤ lo) (hhi : hi ≤ 2 ^ 62) (hle : lo ≤ hi) (hR : hi - lo + 1 ≤ 2 ^ 50)
    (hnb : 1 ≤ nb) :
    (newHistogram lo hi nb).buckets[i]? =
      some ⟨lo + tval lo hi nb i, lo + tval lo hi nb (i + 1) - 1, 0⟩ := by
  rw [newHistogram_buckets_getElem lo hi nb i hi2]
  have hTi0 := tval_nonneg lo hi nb i hle hR hnb
  have hTi1 := tval_le_R lo hi nb i (by omega) hle hR hnb
  have hTj0 := tval_nonneg lo hi nb (i + 1) hle hR hnb
  have hTj1 := tval_le_R lo hi nb (i + 1) (by omega) hle hR hnb
  rw [wrap64_eq_self (lo + tval lo hi nb i) (by omega) (by omega),
    wrap64_eq_self (lo + tval lo hi nb (i + 1) - 1) (by omega) (by omega)]

/-- A histogram whose step and bucket bounds agree with those of
`newHistogram lo hi nb` (only the counters may differ). -/
def sameShape (lo hi : ℤ) (nb : ℕ) (h : histogram) : Prop :=
  h.step = hstepF lo hi nb ∧
    h.buckets.map (fun b => (b.bmin, b.bmax)) =
      (newHistogram lo hi nb).buckets.map (fun b => (b.bmin, b.bmax))

theorem sameShape_init (lo hi : ℤ) (nb : ℕ) : sameShape lo hi nb (newHistogram lo hi nb) :=
  ⟨rfl, rfl⟩

theorem sameShape_length (lo hi : ℤ) (nb : ℕ) (h : histogram)
    (hsh : sameShape lo hi nb h) : h.buckets.length = nb := by
  have hh := congrArg List.length hsh.2
  simpa [newHistogram_buckets_length] using hh

theorem sameShape_bounds (lo hi : ℤ) (nb : ℕ) (h : histogram)
    (hsh : sameShape lo hi nb h) (i : ℕ) (hi2 : i < nb)
    (hlo : -2 ^ 62 ≤ lo) (hhi : hi ≤ 2 ^ 62) (hle : lo ≤ hi) (hR : hi - lo + 1 ≤ 2 ^ 50)
    (hnb : 1 ≤ nb) :
    ∃ b, h.buckets[i]? = some b ∧ b.bmin = lo + tval lo hi nb i ∧
      b.bmax = lo + tval lo hi nb (i + 1) - 1 := by
  have hh := congrArg (fun l => l[i]?) hsh.2
  simp only [List.getElem?_map] at hh
  rw [newHistogram_bucket_bounds lo hi nb i hi2 hlo hhi hle hR hnb] at hh
  cases hbi : h.buckets[i]? with
  | none => rw [hbi] at hh; simp at hh
  | some b =>
    rw [hbi] at hh
    have hb2 : (b.bmin, b.bmax) =
        (lo + tval lo hi nb i, lo + tval lo hi nb (i + 1) - 1) := by
      simpa using hh
    exact ⟨b, rfl, congrArg Prod.fst hb2, congrArg Prod.snd hb2⟩

theorem map_bounds_set_count (l : List bucket) (j : ℕ) (hj : j < l.length) (x : ℤ) :
    (l.set j { l.get ⟨j, hj⟩ with count := x }).map (fun b => (b.bmin, b.bmax)) =
      l.map (fun b => (b.bmin, b.bmax)) := by
  rw [List.map_set]
  apply List.ext_getElem?
  intro k
  rw [List.getElem?_set]
  split
  · rename_i hkj
    subst hkj
    rw [if_pos (by simpa using hj)]
    rw [List.getElem?_eq_getElem (by simpa using hj)]
    rw [List.getElem_map]
    rfl
  · rfl

theorem map_count_set_count (l : List bucket) (j : ℕ) (hj : j < l.length) (x : ℤ) :
    (l.set j { l.get ⟨j, hj⟩ with count := x }).map bucket.count =
      (l.map bucket.count).set j x := by
  rw [List.map_set]

theorem map_count_get (l : List bucket) (j : ℕ) (hj : j < l.length) :
    (l.map bucket.count)[j]? = some (l.get ⟨j, hj⟩).count := by
  rw [List.getElem?_map, List.getElem?_eq_getElem hj]
  rfl

/-- One call to `add` on any histogram with the constructed shape: it never
panics, preserves the shape, and performs exactly one of the three counter
updates (underflow, overflow, or a single bucket increment). -/
theorem add_step (lo hi : ℤ) (nb : ℕ) (hst : histogram) (n : ℤ)
    (hlo : -2 ^ 62 ≤ lo) (hhi : hi ≤ 2 ^ 62) (hle : lo ≤ hi) (hR : hi - lo + 1 ≤ 2 ^ 50)
    (hnb : 1 ≤ nb) (hsh : sameShape lo hi nb hst) :
    ∃ h2, hst.add n = some h2 ∧ sameShape lo hi nb h2 ∧
      ((n < lo ∧ h2.underflow = wrap64 (hst.underflow + 1) ∧ h2.overflow = hst.overflow ∧
          h2.buckets.map bucket.count = hst.buckets.map bucket.count) ∨
       (lo ≤ n ∧ lo + tval lo hi nb nb - 1 < n ∧ h2.underflow = hst.underflow ∧
          h2.overflow = wrap64 (hst.overflow + 1) ∧
          h2.buckets.map bucket.count = hst.buckets.map bucket.count) ∨
       (lo ≤ n ∧ n ≤ lo + tval lo hi nb nb - 1 ∧ h2.underflow = hst.underflow ∧
          h2.overflow = hst.overflow ∧
          ∃ j c, j < nb ∧ (hst.buckets.map bucket.count)[j]? = some c ∧
            h2.buckets.map bucket.count =
              (hst.buckets.map bucket.count).set j (wrap64 (c + 1)) ∧
            ∀ bc, hst.buckets[(ftrunc (fdiv (i2f (n - lo))
                (hstepF lo hi nb))).toNat]? = some bc →
              j = if bc.bmax < n
                then (ftrunc (fdiv (i2f (n - lo)) (hstepF lo hi nb))).toNat + 1
                else (ftrunc (fdiv (i2f (n - lo)) (hstepF lo hi nb))).toNat)) := by
  have hlen := sameShape_length lo hi nb hst hsh
  have hbnd := fun i hi2 => sameShape_bounds lo hi nb hst hsh i hi2 hlo hhi hle hR hnb
  obtain ⟨hstep, hmap⟩ := hsh
  obtain ⟨st, bks, u, o⟩ := hst
  dsimp only at hstep hmap hlen hbnd ⊢
  cases bks with
  | nil => simp at hlen; omega
  | cons b0 t =>
  -- identify b0's lower bound
  obtain ⟨b0x, hb0get, hb0min, hb0max⟩ := hbnd 0 (by omega)
  have hb0s : (b0 :: t)[0]? = some b0 := by simp
  rw [hb0s] at hb0get
  rw [← Option.some.inj hb0get] at hb0min hb0max
  rw [tval_zero, add_zero] at hb0min
  -- identify the last bucket
  obtain ⟨bl, hblget, hblmin, hblmax⟩ := hbnd (nb - 1) (by omega)
  have hlast : (b0 :: t).getLast? = some bl := by
    rw [List.getLast?_eq_getElem?, hlen]
    exact hblget
  have hnb1 : nb - 1 + 1 = nb := by omega
  rw [hnb1] at hblmax
  -- reduce the two matches in add
  simp only [histogram.add]
  rw [hlast]
  dsimp only
  by_cases hn1 : n < b0.bmin
  · rw [if_pos hn1]
    exact ⟨_, rfl, ⟨hstep, hmap⟩, Or.inl ⟨by omega, rfl, rfl, rfl⟩⟩
  · rw [if_neg hn1]
    by_cases hn2 : bl.bmax < n
    · rw [if_pos hn2]
      exact ⟨_, rfl, ⟨hstep, hmap⟩,
        Or.inr (Or.inl ⟨by omega, by omega, rfl, rfl, rfl⟩)⟩
    · rw [if_neg hn2]
      have hnlo : lo ≤ n := by omega
      have hnup : n ≤ lo + tval lo hi nb nb - 1 := by omega
      have hdwrap : wrap64 (n - b0.bmin) = n - lo := by
        rw [hb0min]
        have hTnn := tval_nonneg lo hi nb nb hle hR hnb
        have hTR := tval_le_R lo hi nb nb (le_refl nb) hle hR hnb
        exact wrap64_eq_self _ (by omega) (by omega)
      simp only [hdwrap, hstep]
      have hcand := cand_bounds lo hi nb (n - lo) hle hR hnb (by omega) (by omega)
      set c : ℤ := ftrunc (fdiv (i2f (n - lo)) (hstepF lo hi nb)) with hcdef
      have hcond : 0 ≤ c ∧ c.toNat < (b0 :: t).length := ⟨hcand.1, by rw [hlen]; omega⟩
      rw [dif_pos hcond]
      -- the bucket at the candidate index
      obtain ⟨bc, hbcget, hbcmin, hbcmax⟩ := hbnd c.toNat (by omega)
      have hgetc : (b0 :: t).get ⟨c.toNat, hcond.2⟩ = bc := by
        have hg1 : (b0 :: t)[c.toNat]? = some ((b0 :: t).get ⟨c.toNat, hcond.2⟩) := by
          rw [List.getElem?_eq_getElem hcond.2]
          rfl
        rw [hg1] at hbcget
        exact Option.some.inj hbcget
      simp only [hgetc]
      by_cases hcorr : bc.bmax < n
      · -- correction fires: it cannot fire in the last bucket
        have hclt : c.toNat + 1 < nb := by
          rcases Nat.lt_or_ge (c.toNat + 1) nb with hlt | hge
          · exact hlt
          · exfalso
            have hceq : c.toNat + 1 = nb := by omega
            rw [hbcmax, hceq] at hcorr
            omega
        have hjlt : c.toNat + 1 < (b0 :: t).length := by omega
        simp only [hcorr, if_true]
        rw [dif_pos hjlt]
        refine ⟨_, rfl, ⟨rfl, ?_⟩, Or.inr (Or.inr ⟨hnlo, hnup, rfl, rfl,
          c.toNat + 1, ((b0 :: t).get ⟨c.toNat + 1, hjlt⟩).count, hclt,
          map_count_get _ _ hjlt, map_count_set_count _ _ hjlt _,
          by intro bc2 hbc2
             rw [hbcget] at hbc2
             rw [← Option.some.inj hbc2, if_pos hcorr]⟩)⟩
        rw [map_bounds_set_count _ _ hjlt]
        exact hmap
      · have hjlt : c.toNat < (b0 :: t).length := hcond.2
        simp only [hcorr, if_false]
        rw [dif_pos hjlt]
        refine ⟨_, rfl, ⟨rfl, ?_⟩, Or.inr (Or.inr ⟨hnlo, hnup, rfl, rfl,
          c.toNat, ((b0 :: t).get ⟨c.toNat, hjlt⟩).count, by omega,
          map_count_get _ _ hjlt, map_count_set_count _ _ hjlt _,
          by intro bc2 hbc2
             rw [hbcget] at hbc2
             rw [← Option.some.inj hbc2, if_neg hcorr]⟩)⟩
        rw [map_bounds_set_count _ _ hjlt]
        exact hmap

/-- A sequence of `add` calls, aborting on the first panic (as the Go program
would). -/
def addAll (h : histogram) : List ℤ → Option histogram
  | [] => some h
  | n :: ns =>
    match h.add n with
    | none => none
    | some h2 => addAll h2 ns

/-- Number of values strictly below the configured minimum. -/
def nBelow (lo : ℤ) (vs : List ℤ) : ℕ := (vs.filter (fun v => decide (v < lo))).length

/-- Number of values strictly above the last bucket's upper bound. -/
def nAbove (m : ℤ) (vs : List ℤ) : ℕ := (vs.filter (fun v => decide (m < v))).length

theorem sum_set_add_one : ∀ (l : List ℤ) (j : ℕ) (c : ℤ), l[j]? = some c →
    (l.set j (c + 1)).sum = l.sum + 1 := by
  intro l
  induction l with
  | nil => intro j c h; simp at h
  | cons a l ih =>
    intro j c h
    cases j with
    | zero =>
      simp only [List.getElem?_cons_zero] at h
      rw [Option.some.inj h]
      simp [List.sum_cons]
      ring
    | succ j =>
      simp only [List.getElem?_cons_succ] at h
      simp only [List.set_cons_succ, List.sum_cons, ih j c h]
      ring

/-- Folding `add` over a value list from any shaped state: never panics, and
the three counter families account exactly for every processed value. -/
theorem addAll_accounting (lo hi : ℤ) (nb : ℕ)
    (hlo : -2 ^ 62 ≤ lo) (hhi : hi ≤ 2 ^ 62) (hle : lo ≤ hi) (hR : hi - lo + 1 ≤ 2 ^ 50)
    (hnb : 1 ≤ nb) :
    ∀ (vs : List ℤ) (hst : histogram), sameShape lo hi nb hst →
      0 ≤ hst.underflow → hst.underflow + vs.length < 2 ^ 63 →
      0 ≤ hst.overflow → hst.overflow + vs.length < 2 ^ 63 →
      (∀ x ∈ hst.buckets.map bucket.count, 0 ≤ x ∧ x + vs.length < 2 ^ 63) →
      ∃ hf, addAll hst vs = some hf ∧ sameShape lo hi nb hf ∧
        hf.underflow = hst.underflow + (nBelow lo vs : ℤ) ∧
        hf.overflow = hst.overflow + (nAbove (lo + tval lo hi nb nb - 1) vs : ℤ) ∧
        (hf.buckets.map bucket.count).sum = (hst.buckets.map bucket.count).sum
          + (vs.length : ℤ) - (nBelow lo vs : ℤ)
          - (nAbove (lo + tval lo hi nb nb - 1) vs : ℤ) := by
  intro vs
  induction vs with
  | nil =>
    intro hst hsh hu0 hu1 ho0 ho1 hcnt
    exact ⟨hst, rfl, hsh, by simp [nBelow], by simp [nAbove], by simp [nBelow, nAbove]⟩
  | cons v vs ih =>
    intro hst hsh hu0 hu1 ho0 ho1 hcnt
    obtain ⟨h2, hadd, hsh2, hcase⟩ := add_step lo hi nb hst v hlo hhi hle hR hnb hsh
    have hmtop : lo - 1 ≤ lo + tval lo hi nb nb - 1 := by
      have := tval_nonneg lo hi nb nb hle hR hnb
      omega
    have hstep1 : addAll hst (v :: vs) = addAll h2 vs := by
      simp only [addAll, hadd]
    rcases hcase with ⟨hv, hu, ho, hc⟩ | ⟨hv1, hv2, hu, ho, hc⟩ |
      ⟨hv1, hv2, hu, ho, j, cj, hj, hcj, hc, -⟩
    · -- underflow step
      have hlc : ((v :: vs).length : ℤ) = (vs.length : ℤ) + 1 := by
        rw [List.length_cons]; push_cast; ring
      rw [hlc] at hu1 ho1
      have huw : wrap64 (hst.underflow + 1) = hst.underflow + 1 :=
        wrap64_eq_self _ (by omega) (by omega)
      rw [huw] at hu
      have hnbc : (nBelow lo (v :: vs) : ℤ) = (nBelow lo vs : ℤ) + 1 := by
        simp [nBelow, List.filter_cons, hv]
      have hvm : ¬(lo + tval lo hi nb nb - 1 < v) := by omega
      have hnac : (nAbove (lo + tval lo hi nb nb - 1) (v :: vs) : ℤ) =
          (nAbove (lo + tval lo hi nb nb - 1) vs : ℤ) := by
        simp [nAbove, List.filter_cons, hvm]
      obtain ⟨hf, hfold, hshf, hfu, hfo, hfs⟩ := ih h2 hsh2
        (by omega) (by omega) (by omega) (by omega)
        (by intro x hx; rw [hc] at hx; have hb := hcnt x hx; rw [hlc] at hb; omega)
      have hcsum : (h2.buckets.map bucket.count).sum = (hst.buckets.map bucket.count).sum :=
        congrArg List.sum hc
      refine ⟨hf, by rw [hstep1]; exact hfold, hshf, ?_, ?_, ?_⟩
      · rw [hfu, hu, hnbc]; ring
      · rw [hfo, ho, hnac]
      · rw [hfs, hcsum, hlc, hnbc, hnac]; ring
    · -- overflow step
      have hlc : ((v :: vs).length : ℤ) = (vs.length : ℤ) + 1 := by
        rw [List.length_cons]; push_cast; ring
      rw [hlc] at hu1 ho1
      have how : wrap64 (hst.overflow + 1) = hst.overflow + 1 :=
        wrap64_eq_self _ (by omega) (by omega)
      rw [how] at ho
      have hvb : ¬(v < lo) := by omega
      have hnbc : (nBelow lo (v :: vs) : ℤ) = (nBelow lo vs : ℤ) := by
        simp [nBelow, List.filter_cons, hvb]
      have hnac : (nAbove (lo + tval lo hi nb nb - 1) (v :: vs) : ℤ) =
          (nAbove (lo + tval lo hi nb nb - 1) vs : ℤ) + 1 := by
        simp [nAbove, List.filter_cons, hv2]
      obtain ⟨hf, hfold, hshf, hfu, hfo, hfs⟩ := ih h2 hsh2
        (by omega) (by omega) (by omega) (by omega)
        (by intro x hx; rw [hc] at hx; have hb := hcnt x hx; rw [hlc] at hb; omega)
      have hcsum : (h2.buckets.map bucket.count).sum = (hst.buckets.map bucket.count).sum :=
        congrArg List.sum hc
      refine ⟨hf, by rw [hstep1]; exact hfold, hshf, ?_, ?_, ?_⟩
      · rw [hfu, hu, hnbc]
      · rw [hfo, ho, hnac]; ring
      · rw [hfs, hcsum, hlc, hnbc, hnac]; ring
    · -- bucket increment step
      have hlc : ((v :: vs).length : ℤ) = (vs.length : ℤ) + 1 := by
        rw [List.length_cons]; push_cast; ring
      rw [hlc] at hu1 ho1
      have hcjmem : cj ∈ hst.buckets.map bucket.count := List.getElem?_mem hcj
      have hcjb := hcnt cj hcjmem
      rw [hlc] at hcjb
      have hcw : wrap64 (cj + 1) = cj + 1 := wrap64_eq_self _ (by omega) (by omega)
      rw [hcw] at hc
      have hvb : ¬(v < lo) := by omega
      have hvm : ¬(lo + tval lo hi nb nb - 1 < v) := by omega
      have hnbc : (nBelow lo (v :: vs) : ℤ) = (nBelow lo vs : ℤ) := by
        simp [nBelow, List.filter_cons, hvb]
      have hnac : (nAbove (lo + tval lo hi nb nb - 1) (v :: vs) : ℤ) =
          (nAbove (lo + tval lo hi nb nb - 1) vs : ℤ) := by
        simp [nAbove, List.filter_cons, hvm]
      obtain ⟨hf, hfold, hshf, hfu, hfo, hfs⟩ := ih h2 hsh2
        (by omega) (by omega) (by omega) (by omega)
        (by intro x hx
            rw [hc] at hx
            rcases List.mem_or_eq_of_mem_set hx with hx2 | hx2
            · have hb := hcnt x hx2; rw [hlc] at hb; omega
            · rw [hx2]; omega)
      have hcsum : (h2.buckets.map bucket.count).sum =
          (hst.buckets.map bucket.count).sum + 1 := by
        rw [hc]
        exact sum_set_add_one _ j cj hcj
      refine ⟨hf, by rw [hstep1]; exact hfold, hshf, ?_, ?_, ?_⟩
      · rw [hfu, hu, hnbc]
      · rw [hfo, ho, hnac]
      · rw [hfs, hcsum, hlc, hnbc, hnac]; ring

/-- When `nb` divides the range width the computed step is exactly the integer
`(hi - lo + 1) / nb`. -/
theorem hstepF_dvd_val (lo hi : ℤ) (nb : ℕ) (hle : lo ≤ hi) (hR : hi - lo + 1 ≤ 2 ^ 50)
    (hnb : 1 ≤ nb) (hdvd : (nb : ℤ) ∣ (hi - lo + 1)) :
    (hstepF lo hi nb).val = (((hi - lo + 1) / (nb : ℤ) : ℤ) : ℚ) := by
  have hR1 : (1 : ℤ) ≤ hi - lo + 1 := by omega
  have hnbZ : (1 : ℤ) ≤ (nb : ℤ) := by exact_mod_cast hnb
  obtain ⟨k, hk⟩ := hdvd
  have hk1 : 1 ≤ k := by
    rcases le_or_lt k 0 with h | h
    · have h2 : (nb : ℤ) * k ≤ 0 := mul_nonpos_of_nonneg_of_nonpos (by omega) h
      omega
    · omega
  have hkR : k ≤ hi - lo + 1 := by
    have h2 : 1 * k ≤ (nb : ℤ) * k := mul_le_mul_of_nonneg_right hnbZ (by omega)
    linarith [hk]
  have hnbR : (nb : ℤ) ≤ hi - lo + 1 := by
    have h2 : (nb : ℤ) * 1 ≤ (nb : ℤ) * k := mul_le_mul_of_nonneg_left hk1 (by omega)
    linarith [hk]
  have hdivk : (hi - lo + 1) / (nb : ℤ) = k := by
    rw [hk]
    exact Int.mul_ediv_cancel_left _ (by omega)
  have hwrap : wrap64 (hi - lo + 1) = hi - lo + 1 := wrap64_eq_self _ (by omega) (by omega)
  have hRval : (i2f (wrap64 (hi - lo + 1))).val = ((hi - lo + 1 : ℤ) : ℚ) := by
    rw [hwrap]
    exact i2f_exact_int _ (by omega) (by omega)
  have hnbval : (i2f (nb : ℤ)).val = ((nb : ℤ) : ℚ) := i2f_exact_int _ (by omega) (by omega)
  have hRpos : 0 < (i2f (wrap64 (hi - lo + 1))).val := by
    rw [hRval]; exact_mod_cast hR1
  have hnbpos : 0 < (i2f (nb : ℤ)).val := by
    rw [hnbval]; exact_mod_cast hnbZ
  have hkq : ((k.toNat : ℕ) : ℚ) = ((k : ℤ) : ℚ) := by
    exact_mod_cast congrArg (fun z : ℤ => (z : ℚ)) (Int.toNat_of_nonneg (by omega))
  have hnbne : (((nb : ℤ)) : ℚ) ≠ 0 := by
    have : (0 : ℚ) < ((nb : ℤ) : ℚ) := by exact_mod_cast hnbZ
    linarith
  have hq : (i2f (wrap64 (hi - lo + 1))).val / (i2f (nb : ℤ)).val =
      ((k.toNat : ℕ) : ℚ) * 2 ^ (0 : ℤ) := by
    rw [hRval, hnbval, hkq, zpow_zero, mul_one, hk]
    push_cast
    rw [mul_comm, mul_div_assoc, div_self (by exact_mod_cast hnbne), mul_one]
  have hfd := fdiv_spec (i2f (wrap64 (hi - lo + 1))) (i2f (nb : ℤ))
    (F.m_pos _ hRpos) (F.m_pos _ hnbpos)
  have hval := hfd.2.2 k.toNat 0 (by omega) hq
  rw [hdivk]
  rw [hstepF] at *
  rw [hval, hkq, zpow_zero, mul_one]

/-- When `nb` divides the range width every bucket offset is exact:
`tval j = j * k`. -/
theorem tval_dvd (lo hi : ℤ) (nb : ℕ) (j : ℕ) (hj : j ≤ nb)
    (hle : lo ≤ hi) (hR : hi - lo + 1 ≤ 2 ^ 50) (hnb : 1 ≤ nb)
    (hdvd : (nb : ℤ) ∣ (hi - lo + 1)) :
    tval lo hi nb j = (j : ℤ) * ((hi - lo + 1) / (nb : ℤ)) := by
  have hR1 : (1 : ℤ) ≤ hi - lo + 1 := by omega
  have hnbZ : (1 : ℤ) ≤ (nb : ℤ) := by exact_mod_cast hnb
  have hσ := hstepF_dvd_val lo hi nb hle hR hnb hdvd
  obtain ⟨k, hk⟩ := hdvd
  have hk1 : 1 ≤ k := by
    rcases le_or_lt k 0 with h | h
    · have h2 : (nb : ℤ) * k ≤ 0 := mul_nonpos_of_nonneg_of_nonpos (by omega) h
      omega
    · omega
  have hdivk : (hi - lo + 1) / (nb : ℤ) = k := by
    rw [hk]
    exact Int.mul_ediv_cancel_left _ (by omega)
  rw [hdivk] at hσ ⊢
  rcases Nat.eq_zero_or_pos j with hj0 | hj1
  · rw [hj0, tval_zero]
    simp
  · have hjZ : (1 : ℤ) ≤ (j : ℤ) := by exact_mod_cast hj1
    have hjnb : (j : ℤ) ≤ (nb : ℤ) := by exact_mod_cast hj
    have hjkR : (j : ℤ) * k ≤ hi - lo + 1 := by
      have h2 : (j : ℤ) * k ≤ (nb : ℤ) * k := mul_le_mul_of_nonneg_right hjnb (by omega)
      linarith [hk]
    have hjval : (i2f ((j : ℕ) : ℤ)).val = (((j : ℕ) : ℤ) : ℚ) :=
      i2f_exact_int _ (by omega) (by nlinarith [hjkR, hk1, hjZ])
    have hjpos : 0 < (i2f ((j : ℕ) : ℤ)).val := by
      rw [hjval]; exact_mod_cast hjZ
    have hσpos : 0 < (hstepF lo hi nb).val := by
      rw [hσ]; exact_mod_cast hk1
    have hjkq : (((((j : ℤ) * k).toNat : ℕ)) : ℚ) = (((j : ℤ) * k : ℤ) : ℚ) := by
      exact_mod_cast congrArg (fun z : ℤ => (z : ℚ))
        (Int.toNat_of_nonneg (by nlinarith [hjZ, hk1]))
    have hprod : (i2f ((j : ℕ) : ℤ)).val * (hstepF lo hi nb).val =
        ((((j : ℤ) * k).toNat : ℕ) : ℚ) * 2 ^ (0 : ℤ) := by
      rw [hjval, hσ, hjkq, zpow_zero, mul_one]
      push_cast
      ring
    have hfm := fmul_spec (i2f ((j : ℕ) : ℤ)) (hstepF lo hi nb)
      (F.m_pos _ hjpos) (F.m_pos _ hσpos)
    have hval := hfm.2.2 ((j : ℤ) * k).toNat 0 (by omega) hprod
    rw [hjkq, zpow_zero, mul_one] at hval
    have hmnn : 0 ≤ (fmul (i2f ((j : ℕ) : ℤ)) (hstepF lo hi nb)).m := by
      have hpos := hfm.1
      exact le_of_lt (F.m_pos _ hpos)
    have ht := ftrunc_spec (fmul (i2f ((j : ℕ) : ℤ)) (hstepF lo hi nb)) hmnn
    rw [hval] at ht
    have h1 : (tval lo hi nb j : ℚ) ≤ (((j : ℤ) * k : ℤ) : ℚ) := ht.2.1
    have h2 : (((j : ℤ) * k : ℤ) : ℚ) < (tval lo hi nb j : ℚ) + 1 := ht.2.2
    have h1z : tval lo hi nb j ≤ (j : ℤ) * k := by exact_mod_cast h1
    have h2z : (j : ℤ) * k < tval lo hi nb j + 1 := by exact_mod_cast h2
    omega

/-- Exact-step candidate: with an integer step `k` the computed candidate index
is the true floor `d / k` or one less. -/
theorem cand_dvd (lo hi : ℤ) (nb : ℕ) (d : ℤ)
    (hle : lo ≤ hi) (hR : hi - lo + 1 ≤ 2 ^ 50) (hnb : 1 ≤ nb)
    (hdvd : (nb : ℤ) ∣ (hi - lo + 1)) (hd0 : 0 ≤ d) (hd1 : d ≤ (hi - lo + 1) - 1) :
    d / ((hi - lo + 1) / (nb : ℤ)) - 1 ≤ ftrunc (fdiv (i2f d) (hstepF lo hi nb)) ∧
      ftrunc (fdiv (i2f d) (hstepF lo hi nb)) ≤ d / ((hi - lo + 1) / (nb : ℤ)) := by
  have hR1 : (1 : ℤ) ≤ hi - lo + 1 := by omega
  have hnbZ : (1 : ℤ) ≤ (nb : ℤ) := by exact_mod_cast hnb
  have hσ := hstepF_dvd_val lo hi nb hle hR hnb hdvd
  obtain ⟨k, hk⟩ := hdvd
  have hk1 : 1 ≤ k := by
    rcases le_or_lt k 0 with h | h
    · have h2 : (nb : ℤ) * k ≤ 0 := mul_nonpos_of_nonneg_of_nonpos (by omega) h
      omega
    · omega
  have hdivk : (hi - lo + 1) / (nb : ℤ) = k := by
    rw [hk]
    exact Int.mul_ediv_cancel_left _ (by omega)
  rw [hdivk] at hσ ⊢
  have hqdm := Int.ediv_add_emod d k
  have hqr0 := Int.emod_nonneg d (by omega : k ≠ 0)
  have hqr1 := Int.emod_lt_of_pos d (by omega : 0 < k)
  set q : ℤ := d / k with hqdef
  have hqk : k * q ≤ d := by linarith [hqdm, hqr0]
  have hqk2 : d < k * q + k := by linarith [hqdm, hqr1]
  have hq0 : 0 ≤ q := Int.ediv_nonneg hd0 (by omega)
  have hqnb : q < (nb : ℤ) := by
    rcases lt_or_ge q (nb : ℤ) with h | h
    · exact h
    · exfalso
      have h2 : k * (nb : ℤ) ≤ k * q := mul_le_mul_of_nonneg_left h (by omega)
      have h3 : k * (nb : ℤ) = hi - lo + 1 := by linarith [hk]
      linarith
  have hkqR : k * (q + 1) ≤ hi - lo + 1 := by
    have h2 : k * (q + 1) ≤ k * (nb : ℤ) := mul_le_mul_of_nonneg_left (by omega) (by omega)
    nlinarith [hk]
  rcases eq_or_lt_of_le hd0 with hd | hd
  · rw [← hd, cand_zero]
    have hq' : q = 0 := by rw [hqdef, ← hd]; exact Int.zero_ediv k
    omega
  · have hvd : (i2f d).val = (d : ℚ) := i2f_exact_int d hd (by omega)
    have hσpos : 0 < (hstepF lo hi nb).val := by
      rw [hσ]; exact_mod_cast hk1
    have hfd := fdiv_spec (i2f d) (hstepF lo hi nb) (F.m_pos _ (i2f_spec d hd).1)
      (F.m_pos _ hσpos)
    set vc := (fdiv (i2f d) (hstepF lo hi nb)).val with hvcdef
    have ht := ftrunc_spec (fdiv (i2f d) (hstepF lo hi nb)) (le_of_lt (F.m_pos _ hfd.1))
    set c : ℤ := ftrunc (fdiv (i2f d) (hstepF lo hi nb)) with hcdef
    have habs := abs_le.mp hfd.2.1
    rw [hvd, hσ] at habs
    have hkQ : (1 : ℚ) ≤ ((k : ℤ) : ℚ) := by exact_mod_cast hk1
    have hkne : (((k : ℤ)) : ℚ) ≠ 0 := by linarith
    have hid : (d : ℚ) / ((k : ℤ) : ℚ) * ((k : ℤ) : ℚ) = (d : ℚ) := by field_simp
    -- |vc * k - d| ≤ d / 2^53
    have hvk1 : vc * ((k : ℤ) : ℚ) ≤ (d : ℚ) + (d : ℚ) / 2 ^ 53 := by
      nlinarith [habs.2, hkQ, hid]
    have hvk2 : (d : ℚ) - (d : ℚ) / 2 ^ 53 ≤ vc * ((k : ℤ) : ℚ) := by
      nlinarith [habs.1, hkQ, hid]
    have hdR : (d : ℚ) ≤ 2 ^ 50 := by exact_mod_cast (by omega : d ≤ 2 ^ 50)
    have hdpos : (0 : ℚ) < (d : ℚ) := by exact_mod_cast hd
    constructor
    · -- lower bound: q - 1 ≤ c
      have h1 : (c : ℚ) * ((k : ℤ) : ℚ) > vc * ((k : ℤ) : ℚ) - ((k : ℤ) : ℚ) := by
        nlinarith [ht.2.2, hkQ]
      have h2 : ((k * q : ℤ) : ℚ) ≤ (d : ℚ) := by exact_mod_cast hqk
      have h3 : (d : ℚ) / 2 ^ 53 ≤ 1 / 8 := by nlinarith [hdR]
      have h4 : (c : ℚ) * ((k : ℤ) : ℚ) > ((k * (q - 1) : ℤ) : ℚ) - 1 / 8 := by
        push_cast at h2 ⊢
        nlinarith [hvk2, h1, h3, hkQ]
      have h5 : c * k > k * (q - 1) - 1 := by
        have h6 : ((c * k : ℤ) : ℚ) > ((k * (q - 1) : ℤ) : ℚ) - 1 := by
          push_cast at h4 ⊢
          nlinarith [h4]
        exact_mod_cast (by push_cast at h6 ⊢; linarith : ((c * k : ℤ) : ℚ) >
          ((k * (q - 1) - 1 : ℤ) : ℚ))
      have h7 : k * (q - 1) ≤ k * c := by nlinarith [h5]
      have h8 : q - 1 ≤ c := le_of_mul_le_mul_left h7 (by omega)
      exact h8
    · -- upper bound: c ≤ q
      have h1 : (c : ℚ) * ((k : ℤ) : ℚ) ≤ vc * ((k : ℤ) : ℚ) := by
        nlinarith [ht.2.1, hkQ]
      have h2 : (d : ℚ) ≤ ((k * (q + 1) - 1 : ℤ) : ℚ) := by
        exact_mod_cast (by linarith [hqk2] : d ≤ k * (q + 1) - 1)
      have h3 : (d : ℚ) / 2 ^ 53 ≤ 1 / 8 := by nlinarith [hdR]
      have hkq1R : ((k * (q + 1) : ℤ) : ℚ) ≤ 2 ^ 50 := by
        exact_mod_cast (by linarith [hkqR, hR] : k * (q + 1) ≤ 2 ^ 50)
      have h4 : (c : ℚ) * ((k : ℤ) : ℚ) < ((k * (q + 1) : ℤ) : ℚ) := by
        push_cast at h2 hkq1R ⊢
        nlinarith [hvk1, h1, h3]
      have h5 : c * k < k * (q + 1) := by
        exact_mod_cast (by push_cast at h4 ⊢; linarith : ((c * k : ℤ) : ℚ) <
          ((k * (q + 1) : ℤ) : ℚ))
      have h6 : k * c < k * (q + 1) := by linarith [h5]
      have h7 : c < q + 1 := lt_of_mul_lt_mul_left h6 (by omega)
      omega

/-- C9 (amended): with `-2^62 ≤ min ≤ max ≤ 2^62`, range width `max - min + 1`
at most `2^50`, and at least one bucket, `histogram.add` never hits an
out-of-range bucket index: every call returns an updated histogram instead of
panicking. -/
theorem addNeverPanicsBounded (lo hi : ℤ) (nb : ℕ) (n : ℤ)
    (hlo : -2 ^ 62 ≤ lo) (hhi : hi ≤ 2 ^ 62) (hle : lo ≤ hi)
    (hR : hi - lo + 1 ≤ 2 ^ 50) (hnb : 1 ≤ nb) :
    ∃ h2, (newHistogram lo hi nb).add n = some h2 := by
  obtain ⟨h2, hadd, -, -⟩ :=
    add_step lo hi nb (newHistogram lo hi nb) n hlo hhi hle hR hnb (sameShape_init lo hi nb)
  exact ⟨h2, hadd⟩

theorem addNeverPanicsBounded_witness :
    (-2 ^ 62 ≤ (1 : ℤ) ∧ (100 : ℤ) ≤ 2 ^ 62 ∧ (1 : ℤ) ≤ 100 ∧
        (100 : ℤ) - 1 + 1 ≤ 2 ^ 50 ∧ 1 ≤ 10) ∧
      ∃ h2, (newHistogram 1 100 10).add 42 = some h2 :=
  ⟨⟨by norm_num, by norm_num, by norm_num, by norm_num, by norm_num⟩,
    addNeverPanicsBounded 1 100 10 42 (by norm_num) (by norm_num) (by norm_num)
      (by norm_num) (by norm_num)⟩

/-- C5 (amended): folding `add` over any value list (bounds as in the no-panic
theorem, fewer than `2^63` values) succeeds and accounts exactly: the underflow
counter equals the number of values below `min`, the overflow counter equals
the number of values above the last bucket's upper bound (which is at most
`max`, so every value above `max` is included), and bucket counts plus the two
sentinel counters sum to the number of calls. -/
theorem addSequenceConservation (lo hi : ℤ) (nb : ℕ) (vs : List ℤ)
    (hlo : -2 ^ 62 ≤ lo) (hhi : hi ≤ 2 ^ 62) (hle : lo ≤ hi)
    (hR : hi - lo + 1 ≤ 2 ^ 50) (hnb : 1 ≤ nb) (hlen : (vs.length : ℤ) < 2 ^ 63) :
    ∃ hf, addAll (newHistogram lo hi nb) vs = some hf ∧
      hf.underflow = (nBelow lo vs : ℤ) ∧
      hf.overflow = (nAbove (lo + tval lo hi nb nb - 1) vs : ℤ) ∧
      lo + tval lo hi nb nb - 1 ≤ hi ∧
      (hf.buckets.map bucket.count).sum + hf.underflow + hf.overflow =
        (vs.length : ℤ) := by
  have hc0 : ∀ x ∈ (newHistogram lo hi nb).buckets.map bucket.count, x = 0 := by
    intro x hx
    simp only [newHistogram, List.map_map, List.mem_map, Function.comp] at hx
    obtain ⟨i, -, hxi⟩ := hx
    exact hxi.symm
  obtain ⟨hf, hfold, -, hfu, hfo, hfs⟩ := addAll_accounting lo hi nb hlo hhi hle hR hnb vs
    (newHistogram lo hi nb) (sameShape_init lo hi nb)
    (by simp [newHistogram_underflow])
    (by simp only [newHistogram_underflow]; omega)
    (by simp [newHistogram_overflow])
    (by simp only [newHistogram_overflow]; omega)
    (by intro x hx; have hx0 := hc0 x hx; omega)
  have hsum0 : ((newHistogram lo hi nb).buckets.map bucket.count).sum = 0 :=
    List.sum_eq_zero hc0
  have hT := tval_le_R lo hi nb nb (le_refl nb) hle hR hnb
  refine ⟨hf, hfold, ?_, ?_, by omega, ?_⟩
  · rw [hfu, newHistogram_underflow, zero_add]
  · rw [hfo, newHistogram_overflow, zero_add]
  · rw [hfs, hfu, hfo, hsum0, newHistogram_underflow, newHistogram_overflow]
    ring

theorem addSequenceConservation_witness :
    (-2 ^ 62 ≤ (1 : ℤ) ∧ (100 : ℤ) ≤ 2 ^ 62 ∧ (1 : ℤ) ≤ 100 ∧
        (100 : ℤ) - 1 + 1 ≤ 2 ^ 50 ∧ 1 ≤ 10 ∧
        ((([0, 13, 200] : List ℤ).length : ℕ) : ℤ) < 2 ^ 63) ∧
      ∃ hf, addAll (newHistogram 1 100 10) [0, 13, 200] = some hf ∧
        hf.underflow = (nBelow 1 [0, 13, 200] : ℤ) ∧
        hf.overflow = (nAbove (1 + tval 1 100 10 10 - 1) [0, 13, 200] : ℤ) ∧
        1 + tval 1 100 10 10 - 1 ≤ 100 ∧
        (hf.buckets.map bucket.count).sum + hf.underflow + hf.overflow =
          ((([0, 13, 200] : List ℤ).length : ℕ) : ℤ) :=
  ⟨⟨by norm_num, by norm_num, by norm_num, by norm_num, by norm_num, by norm_num⟩,
    addSequenceConservation 1 100 10 [0, 13, 200] (by norm_num) (by norm_num)
      (by norm_num) (by norm_num) (by norm_num) (by norm_num)⟩

/-- C1 (amended): when the bucket count divides the range width (buckets tile
the range uniformly with integer width `k`), `add` on an in-range value
increments exactly the unique bucket whose `[min, max]` range contains the
value. -/
theorem addIncrementsContainingBucket (lo hi : ℤ) (nb : ℕ) (n : ℤ)
    (hlo : -2 ^ 62 ≤ lo) (hhi : hi ≤ 2 ^ 62) (hle : lo ≤ hi)
    (hR : hi - lo + 1 ≤ 2 ^ 50) (hnb : 1 ≤ nb) (hdvd : (nb : ℤ) ∣ (hi - lo + 1))
    (hn1 : lo ≤ n) (hn2 : n ≤ hi) :
    ∃ j : ℕ, j < nb ∧
      (∀ i : ℕ, i < nb → ∀ b, (newHistogram lo hi nb).buckets[i]? = some b →
        ((b.bmin ≤ n ∧ n ≤ b.bmax) ↔ i = j)) ∧
      ∃ hf, (newHistogram lo hi nb).add n = some hf ∧
        hf.underflow = 0 ∧ hf.overflow = 0 ∧
        hf.buckets.map bucket.count =
          ((newHistogram lo hi nb).buckets.map bucket.count).set j 1 := by
  have hR1 : (1 : ℤ) ≤ hi - lo + 1 := by omega
  have hnbZ : (1 : ℤ) ≤ (nb : ℤ) := by exact_mod_cast hnb
  have hkmul : (nb : ℤ) * ((hi - lo + 1) / (nb : ℤ)) = hi - lo + 1 :=
    Int.mul_ediv_cancel' hdvd
  set k : ℤ := (hi - lo + 1) / (nb : ℤ) with hkdef
  have hk1 : 1 ≤ k := by
    rcases le_or_lt k 0 with h | h
    · have h2 : (nb : ℤ) * k ≤ 0 := mul_nonpos_of_nonneg_of_nonpos (by omega) h
      linarith only [hkmul, h2, hR1]
    · omega
  set d : ℤ := n - lo with hddef
  have hd0 : 0 ≤ d := by omega
  have hd1 : d ≤ (hi - lo + 1) - 1 := by omega
  have hqdm := Int.ediv_add_emod d k
  have hqr0 := Int.emod_nonneg d (by omega : k ≠ 0)
  have hqr1 := Int.emod_lt_of_pos d (by omega : 0 < k)
  set q : ℤ := d / k with hqdef
  have hqk : k * q ≤ d := by linarith only [hqdm, hqr0]
  have hqk2 : d < k * q + k := by linarith only [hqdm, hqr1]
  have hq0 : 0 ≤ q := Int.ediv_nonneg hd0 (by omega)
  have hqnb : q < (nb : ℤ) := by
    rcases lt_or_ge q (nb : ℤ) with h | h
    · exact h
    · exfalso
      have h2 : k * (nb : ℤ) ≤ k * q := mul_le_mul_of_nonneg_left h (by omega)
      linarith only [h2, hkmul, hqk, hd1]
  have hqnbN : q.toNat < nb := by omega
  have htv : ∀ i : ℕ, i ≤ nb → tval lo hi nb i = (i : ℤ) * k := by
    intro i hi2
    rw [tval_dvd lo hi nb i hi2 hle hR hnb hdvd, ← hkdef]
  have hTnb : tval lo hi nb nb = (nb : ℤ) * k := htv nb (le_refl nb)
  obtain ⟨h2, hadd, hsh2, hcase⟩ :=
    add_step lo hi nb (newHistogram lo hi nb) n hlo hhi hle hR hnb (sameShape_init lo hi nb)
  rcases hcase with ⟨hv, -, -, -⟩ | ⟨-, hv2, -, -, -⟩ |
    ⟨hv1, hv2, hu, ho, j2, cj, hj2, hcj, hcnt, hjform⟩
  · omega
  · rw [hTnb] at hv2
    exfalso
    linarith only [hv2, hkmul, hn2]
  · have hbj2 := newHistogram_bucket_bounds lo hi nb j2 hj2 hlo hhi hle hR hnb
    have hcj0 : cj = 0 := by
      rw [List.getElem?_map, hbj2] at hcj
      simp at hcj
      omega
    have hcand := cand_dvd lo hi nb d hle hR hnb hdvd hd0 hd1
    rw [← hkdef, ← hqdef] at hcand
    have hc0 : 0 ≤ ftrunc (fdiv (i2f d) (hstepF lo hi nb)) := by
      have h := cand_bounds lo hi nb d hle hR hnb hd0
        (by rw [hTnb]; linarith only [hkmul, hd1])
      exact h.1
    set c : ℤ := ftrunc (fdiv (i2f d) (hstepF lo hi nb)) with hcdef
    have hcnb : c.toNat < nb := by omega
    have hbc := newHistogram_bucket_bounds lo hi nb c.toNat hcnb hlo hhi hle hR hnb
    have hjv := hjform _ hbc
    dsimp only at hjv
    have hT1 := htv (c.toNat + 1) (by omega)
    have hcast1 : ((c.toNat + 1 : ℕ) : ℤ) = c + 1 := by omega
    have hceq : c = q ∨ c = q - 1 := by omega
    have hj2eq : j2 = q.toNat := by
      rcases hceq with hcq | hcq
      · have hnofire : ¬(lo + tval lo hi nb (c.toNat + 1) - 1 < n) := by
          rw [hT1, hcast1, hcq]
          push_neg
          have hne : n = lo + d := by omega
          rw [hne]
          linarith only [hqk2]
        rw [if_neg hnofire] at hjv
        omega
      · have hfire : lo + tval lo hi nb (c.toNat + 1) - 1 < n := by
          rw [hT1, hcast1, hcq]
          have hne : n = lo + d := by omega
          rw [hne]
          linarith only [hqk]
        rw [if_pos hfire] at hjv
        omega
    refine ⟨q.toNat, hqnbN, ?_, h2, hadd, ?_, ?_, ?_⟩
    · intro i hi2 b hb
      rw [newHistogram_bucket_bounds lo hi nb i hi2 hlo hhi hle hR hnb] at hb
      rw [← Option.some.inj hb]
      dsimp only
      have hTi := htv i (by omega)
      have hTi1 := htv (i + 1) (by omega)
      have hcasti : ((i + 1 : ℕ) : ℤ) = (i : ℤ) + 1 := by push_cast; ring
      rw [hTi, hTi1, hcasti]
      constructor
      · rintro ⟨hmin, hmax⟩
        have hne : n = lo + d := by omega
        rw [hne] at hmin hmax
        have hik1 : (i : ℤ) * k ≤ d := by linarith only [hmin]
        have hik2 : d ≤ ((i : ℤ) + 1) * k - 1 := by linarith only [hmax]
        have h1 : (i : ℤ) * k < (q + 1) * k := by linarith only [hik1, hqk2]
        have h2 : q * k < ((i : ℤ) + 1) * k := by linarith only [hqk, hik2]
        have h3 : (i : ℤ) < q + 1 := lt_of_mul_lt_mul_right h1 (by omega)
        have h4 : q < (i : ℤ) + 1 := lt_of_mul_lt_mul_right h2 (by omega)
        omega
      · intro hiq
        have hiZ : (i : ℤ) = q := by omega
        rw [hiZ]
        have hne : n = lo + d := by omega
        rw [hne]
        constructor
        · linarith only [hqk]
        · linarith only [hqk2]
    · rw [hu, newHistogram_underflow]
    · rw [ho, newHistogram_overflow]
    · rw [hcnt, hcj0, hj2eq]
      have hw1 : wrap64 (0 + 1) = 1 := by decide
      rw [hw1]

theorem addIncrementsContainingBucket_witness :
    (-2 ^ 62 ≤ (1 : ℤ) ∧ (100 : ℤ) ≤ 2 ^ 62 ∧ (1 : ℤ) ≤ 100 ∧
        (100 : ℤ) - 1 + 1 ≤ 2 ^ 50 ∧ 1 ≤ 10 ∧
        ((10 : ℕ) : ℤ) ∣ (100 : ℤ) - 1 + 1 ∧ (1 : ℤ) ≤ 13 ∧ (13 : ℤ) ≤ 100) ∧
      ∃ j : ℕ, j < 10 ∧
        (∀ i : ℕ, i < 10 → ∀ b, (newHistogram 1 100 10).buckets[i]? = some b →
          ((b.bmin ≤ 13 ∧ (13 : ℤ) ≤ b.bmax) ↔ i = j)) ∧
        ∃ hf, (newHistogram 1 100 10).add 13 = some hf ∧
          hf.underflow = 0 ∧ hf.overflow = 0 ∧
          hf.buckets.map bucket.count =
            ((newHistogram 1 100 10).buckets.map bucket.count).set j 1 :=
  ⟨⟨by norm_num, by norm_num, by norm_num, by norm_num, by norm_num,
      by norm_num, by norm_num, by norm_num⟩,
    addIncrementsContainingBucket 1 100 10 13 (by norm_num) (by norm_num) (by norm_num)
      (by norm_num) (by norm_num) (by norm_num) (by norm_num) (by norm_num)⟩

end Mbstats
